import Mathlib

/-!
# Verification of the `RemoteCursor` streaming decoder and the `FixedString` codec

This development embeds, as Lean definitions, the streaming decode state
machine of `src/remote_cursor.rs` (the `RemoteCursor` pull loop) together
with the contracts of its two collaborators that live outside the given
sources: the pending chunk accumulator `BufList` (modelled from the spec's
Pending Buffer contract, §4.1) and the row decoder
`rowbinary::deserialize_from` (modelled from the spec's Row Decoder
contract, §4.2, as an abstract function parameter).  It also embeds the
serde `Serialize`/`Deserialize` implementations of `src/fixed_string.rs`
over a small model of JSON values.

Machine integers (`usize` lengths, capacities) are modelled as `Nat`;
byte values as `Nat`; `bytes::Bytes` chunks as `List Nat`.  The
asynchronous transport stream is modelled as a finite list of
`Except String Chunk` items (`reqwest::Result<Bytes>`), consumed in
order; `Poll::Pending` scheduling does not arise in this synchronous
shallow embedding.  Loops are expressed with explicit fuel; a result of
`none` means the fuel ran out.
-/

/-- A byte chunk delivered by the transport (`bytes::Bytes`). -/
abbrev Chunk := List Nat

/-! ## `usize::checked_next_power_of_two`

The Rust standard library's `next_power_of_two` returns the smallest
power of two greater than or equal to its argument (`1` for `0`).  We
reimplement it with structural fuel so it computes by kernel reduction. -/

/-- Auxiliary doubling loop: starting from `p`, keep doubling until `n ≤ p`. -/
def np2Go : Nat → Nat → Nat → Nat
  | 0, _, p => p
  | f + 1, n, p => if p < n then np2Go f n (p * 2) else p

/-- Model of Rust `usize::checked_next_power_of_two` (§4.3 growth policy):
the least power of two that is `≥ n`. -/
def nextPowerOfTwo (n : Nat) : Nat := np2Go n n 1

/-! ## The Pending Buffer (`BufList`)

Modelled from the spec: `src/buflist.rs` is not among the given sources,
so the Pending Buffer is embedded from the spec's §3/§4.1 contract: an
ordered sequence of retained chunks plus a *commit position* and a *read
position*, both byte offsets into the concatenation of the retained
chunks.  `push` appends a chunk; `rollback` resets the read position to
the commit position; `commit` sets the commit position to the read
position and releases every chunk that is then fully behind it;
`bufsCnt` counts retained chunks (`bufs_cnt()` in the cursor source). -/

structure BufList where
  chunks : List Chunk
  commitOfs : Nat
  readOfs : Nat
deriving Repr, DecidableEq

/-- `BufList::default()`: no chunks, both positions at zero. -/
def BufList.empty : BufList := ⟨[], 0, 0⟩

/-- Modelled from the spec: `push(chunk)` appends a Byte Chunk; it moves
neither the read nor the commit position. -/
def BufList.push (b : BufList) (c : Chunk) : BufList :=
  { b with chunks := b.chunks ++ [c] }

/-- Modelled from the spec: `rollback()` sets the read position back to the
commit position. -/
def BufList.rollback (b : BufList) : BufList :=
  { b with readOfs := b.commitOfs }

/-- Advancing the read position by `n` consumed bytes (the effect the row
decoder's reads have on the read-view before the cursor commits). -/
def BufList.advance (b : BufList) (n : Nat) : BufList :=
  { b with readOfs := b.readOfs + n }

/-- Release every leading chunk that lies fully behind the offset,
returning the remaining chunks and the offset re-based into them. -/
def releaseLoop : List Chunk → Nat → List Chunk × Nat
  | [], n => ([], n)
  | c :: cs, n => if c.length ≤ n then releaseLoop cs (n - c.length) else (c :: cs, n)

/-- Modelled from the spec: `commit()` sets the commit position to the read
position and releases the chunks that are now fully behind it. -/
def BufList.commit (b : BufList) : BufList :=
  ⟨(releaseLoop b.chunks b.readOfs).1, (releaseLoop b.chunks b.readOfs).2,
    (releaseLoop b.chunks b.readOfs).2⟩

/-- `bufs_cnt()`: the number of retained chunks. -/
def BufList.bufsCnt (b : BufList) : Nat := b.chunks.length

/-- The unread view handed to the row decoder: all retained bytes from the
read position on. -/
def BufList.viewBytes (b : BufList) : List Nat := b.chunks.flatten.drop b.readOfs

/-- Retained (not yet committed) bytes: total bytes held minus the commit
position. -/
def BufList.retained (b : BufList) : Nat := b.chunks.flatten.length - b.commitOfs

/-- Well-formedness of a pending buffer between decode attempts: the read
position sits at the commit position (every attempt either committed or
rolled back), no retained chunk is empty, and the commit position lies
strictly inside the first retained chunk (fully superseded chunks have
been released). -/
def BufList.WF (b : BufList) : Prop :=
  b.readOfs = b.commitOfs ∧ (∀ c ∈ b.chunks, c ≠ []) ∧
    (match b.chunks with
     | [] => b.commitOfs = 0
     | c :: _ => b.commitOfs < c.length)

/-! ## The Row Decoder contract and the Remote Cursor

`rowbinary::deserialize_from` is external to the given sources; per the
spec's §4.2 it is modelled as an abstract deterministic function of the
pending buffer's unread byte view and the scratch buffer's length,
returning one of four outcomes (§3 Decode Outcome).  `Error::NotEnoughData`
and `Error::TooSmallBuffer(n)` are the two transient outcomes the cursor
source matches on; every other error is carried by `fatal`. -/

/-- Decode Outcome (§3): the result of one decode attempt.  `success`
additionally records the number of consumed view bytes, which in the Rust
code is implicit in how far `deserialize_from` advanced the buffer. -/
inductive Outcome (R : Type) where
  | success (r : R) (consumed : Nat)
  | notEnoughData
  | tooSmallBuffer (need : Nat)
  | fatal (msg : String)
deriving Repr, DecidableEq

/-- Modelled from the spec: the external row decoder (§4.2) — a pure
function of the unread view and the scratch length. -/
def Decoder (R : Type) := List Nat → Nat → Outcome R

/-- The cursor state: one pending buffer and the scratch buffer `tmp_buf`
(only its length is observable to the decoder model). -/
structure RemoteCursor where
  pending : BufList
  tmpLen : Nat
deriving Repr, DecidableEq

/-- `RemoteCursor::new`: empty pending buffer, `tmp_buf = vec![0; 1024]`. -/
def RemoteCursor.new : RemoteCursor := ⟨BufList.empty, 1024⟩

/-- Observable events of one `poll_next` call, traced in program order:
decode attempts (with the view and scratch length they saw), buffer
commits and rollbacks, scratch growth, and transport polls. -/
inductive Ev (R : Type) where
  | attempt (view : List Nat) (cap : Nat) (o : Outcome R)
  | commitEv
  | growEv (newLen : Nat)
  | rollbackEv
  | fetchOk (c : Chunk)
  | fetchErr (e : String)
  | fetchEnd
deriving Repr, DecidableEq

/-- Terminal errors a cursor can yield: `Error::NotEnoughData` for a
truncated stream, `Error::Custom(e.to_string())` wrapping a transport
error, or a forwarded fatal decode error. -/
inductive CursorError where
  | notEnoughData
  | transport (msg : String)
  | decode (msg : String)
deriving Repr, DecidableEq

/-- One item of the cursor's output stream: a record, a terminal error, or
the end of the stream (`Poll::Ready(None)`). -/
inductive PollItem (R : Type) where
  | item (r : R)
  | errItem (e : CursorError)
  | endStream
deriving Repr, DecidableEq

/-- `RemoteCursor::poll_next` (src/remote_cursor.rs, lines 45-82), with
fuel bounding the number of loop iterations.  Returns the produced item,
the successor state, the rest of the transport stream, and the event
trace of this call. -/
def pollNext {R : Type} (D : Decoder R) :
    Nat → RemoteCursor → List (Except String Chunk) →
    Option (PollItem R × RemoteCursor × List (Except String Chunk) × List (Ev R))
  | 0, _, _ => none
  | fuel + 1, cur, st =>
    match D cur.pending.viewBytes cur.tmpLen with
    | .success r n =>
      some (.item r, ⟨(cur.pending.advance n).commit, cur.tmpLen⟩, st,
        [.attempt cur.pending.viewBytes cur.tmpLen (.success r n), .commitEv])
    | .tooSmallBuffer need =>
      match pollNext D fuel ⟨cur.pending.rollback, nextPowerOfTwo (cur.tmpLen + need)⟩ st with
      | none => none
      | some (res, cur', st', tr) =>
        some (res, cur', st',
          .attempt cur.pending.viewBytes cur.tmpLen (.tooSmallBuffer need) ::
            .growEv (nextPowerOfTwo (cur.tmpLen + need)) :: .rollbackEv :: tr)
    | .notEnoughData =>
      match st with
      | .ok c :: rest =>
        match pollNext D fuel ⟨cur.pending.rollback.push c, cur.tmpLen⟩ rest with
        | none => none
        | some (res, cur', st', tr) =>
          some (res, cur', st',
            .attempt cur.pending.viewBytes cur.tmpLen .notEnoughData ::
              .rollbackEv :: .fetchOk c :: tr)
      | .error e :: rest =>
        some (.errItem (.transport e), ⟨cur.pending.rollback, cur.tmpLen⟩, rest,
          [.attempt cur.pending.viewBytes cur.tmpLen .notEnoughData, .rollbackEv, .fetchErr e])
      | [] =>
        if 0 < cur.pending.rollback.bufsCnt then
          some (.errItem .notEnoughData, ⟨cur.pending.rollback, cur.tmpLen⟩, [],
            [.attempt cur.pending.viewBytes cur.tmpLen .notEnoughData, .rollbackEv, .fetchEnd])
        else
          some (.endStream, ⟨cur.pending.rollback, cur.tmpLen⟩, [],
            [.attempt cur.pending.viewBytes cur.tmpLen .notEnoughData, .rollbackEv, .fetchEnd])
    | .fatal e =>
      some (.errItem (.decode e), cur, st,
        [.attempt cur.pending.viewBytes cur.tmpLen (.fatal e)])

/-- How a full drive of the cursor ends: a clean end of stream, or one
terminal error. -/
inductive Terminal where
  | ended
  | failed (e : CursorError)
deriving Repr, DecidableEq

/-- Drive the cursor to completion: pull items until a terminal item is
produced, collecting records in order and concatenating the traces. -/
def runCursor {R : Type} (D : Decoder R) :
    Nat → RemoteCursor → List (Except String Chunk) →
    Option (List R × Terminal × RemoteCursor × List (Except String Chunk) × List (Ev R))
  | 0, _, _ => none
  | fuel + 1, cur, st =>
    match pollNext D (fuel + 1) cur st with
    | none => none
    | some (.endStream, cur', st', tr) => some ([], .ended, cur', st', tr)
    | some (.errItem e, cur', st', tr) => some ([], .failed e, cur', st', tr)
    | some (.item r, cur', st', tr) =>
      match runCursor D fuel cur' st' with
      | none => none
      | some (rs, t, curF, stF, trF) => some (r :: rs, t, curF, stF, tr ++ trF)

/-! ## `FixedString` and its serde implementations

`src/fixed_string.rs` serializes `FixedString` through
`serialize_struct("FixedString", 1)` with one field `"FixedString"`, and
deserializes by first reading a `serde_json::Value`.  We embed JSON
values as an inductive type; a serde struct with one (string) field
serializes, in the JSON data format, to a one-field object. -/

/-- JSON values (`serde_json::Value`); numbers as integers suffice here. -/
inductive Json where
  | null
  | bool (b : Bool)
  | num (n : Int)
  | str (s : String)
  | arr (elems : List Json)
  | obj (fields : List (String × Json))

/-- `Value::is_object`. -/
def Json.isObject : Json → Bool
  | .obj _ => true
  | _ => false

/-- `Value::as_str`: `some` exactly on JSON strings. -/
def Json.asStr : Json → Option String
  | .str s => some s
  | _ => none

/-- `Value::get(key)` on an object: the value under the first matching
key; `none` on non-objects. -/
def Json.getKey : Json → String → Option Json
  | .obj fields, k => fields.lookup k
  | _, _ => none

/-- The wrapper type for a ClickHouse `FixedString` column. -/
structure FixedString where
  string : String
deriving Repr, DecidableEq

/-- `FixedString::new`. -/
def FixedString.new (s : String) : FixedString := ⟨s⟩

/-- The result of a fallible deserialization in a language with panics:
an `unwrap` on `None` is `panic`, distinct from a returned error. -/
inductive DeResult (α : Type) where
  | ok (a : α)
  | err (msg : String)
  | panic
deriving Repr, DecidableEq

/-- `impl Serialize for FixedString` (src/fixed_string.rs, lines 59-68)
under the JSON data format: a one-field wrapper object. -/
def serializeFixedString (x : FixedString) : Json :=
  .obj [("FixedString", .str x.string)]

/-- `impl Deserialize for FixedString` (src/fixed_string.rs, lines 70-87):
objects must carry a `"FixedString"` field (else a custom error); the
relevant value goes through `as_str().unwrap()`, which panics on
non-strings. -/
def deserializeFixedString (j : Json) : DeResult FixedString :=
  if j.isObject then
    match j.getKey "FixedString" with
    | none => .err "no FixedString field"
    | some v =>
      match v.asStr with
      | some s => .ok (FixedString.new s)
      | none => .panic
  else
    match j.asStr with
    | some s => .ok (FixedString.new s)
    | none => .panic

/-- `impl SerializeAs<T> for FixedString` (src/fixed_string.rs, lines
89-101): the single field holds `format!("{:?}", source)`, i.e. the Debug
formatting of the source value, abstracted here as a function
`dbg : α → String`. -/
def serializeAsFixedString {α : Type} (dbg : α → String) (x : α) : Json :=
  .obj [("FixedString", .str (dbg x))]

/-- Model of Rust std's `Debug` formatting for one character of a string
(the escape set is restricted to the quote and backslash cases, which
suffice for the properties proved here). -/
def escapeDebugChar (c : Char) : String :=
  if c = '"' then "\\\"" else if c = '\\' then "\\\\" else String.singleton c

/-- Escape every character of a string for `Debug` output. -/
def escapeDebug (s : String) : String :=
  s.data.foldr (fun c acc => escapeDebugChar c ++ acc) ""

/-- Model of Rust std's `format!("{:?}", s)` for a `String` source: the
escaped content surrounded by double quotes. -/
def rustDebugString (s : String) : String :=
  "\"" ++ escapeDebug s ++ "\""

/-! ## Trace discipline of one `poll_next` call

`TraceShape` is the grammar of event traces a single `poll_next` call can
emit, indexed by the item the call returned.  It follows the source loop
arm by arm: a successful decode commits and returns; a buffer shortfall
grows the scratch to the next power of two, rolls back and retries the
decode immediately; a data shortfall rolls back and polls the transport,
pushing a received chunk, forwarding a transport error wrapped as a
custom error, or ending (cleanly or with `Error::NotEnoughData`). -/

/-- The trace begins with a decode attempt whose recorded scratch length
is `cap`. -/
def headAttemptAt {R : Type} (cap : Nat) (tr : List (Ev R)) : Prop :=
  ∃ v o tr', tr = Ev.attempt v cap o :: tr'

inductive TraceShape {R : Type} : PollItem R → List (Ev R) → Prop where
  | succ (v : List Nat) (c : Nat) (r : R) (n : Nat) :
      TraceShape (.item r) [.attempt v c (.success r n), .commitEv]
  | small (v : List Nat) (c need : Nat) {res : PollItem R} {tr : List (Ev R)}
      (hrec : TraceShape res tr) (hhead : headAttemptAt (nextPowerOfTwo (c + need)) tr) :
      TraceShape res (.attempt v c (.tooSmallBuffer need) ::
        .growEv (nextPowerOfTwo (c + need)) :: .rollbackEv :: tr)
  | needFetch (v : List Nat) (c : Nat) (ch : Chunk) {res : PollItem R} {tr : List (Ev R)}
      (hrec : TraceShape res tr) :
      TraceShape res (.attempt v c .notEnoughData :: .rollbackEv :: .fetchOk ch :: tr)
  | needErr (v : List Nat) (c : Nat) (e : String) :
      TraceShape (.errItem (.transport e)) [.attempt v c .notEnoughData, .rollbackEv, .fetchErr e]
  | needEndTrunc (v : List Nat) (c : Nat) :
      TraceShape (.errItem .notEnoughData) [.attempt v c .notEnoughData, .rollbackEv, .fetchEnd]
  | needEndClean (v : List Nat) (c : Nat) :
      TraceShape .endStream [.attempt v c .notEnoughData, .rollbackEv, .fetchEnd]
  | fatalTr (v : List Nat) (c : Nat) (e : String) :
      TraceShape (.errItem (.decode e)) [.attempt v c (.fatal e)]

/-- C3 property of a trace: every buffer-shortfall attempt is followed
immediately by growth of the scratch buffer to the next power of two of
(current scratch length + reported need), a rollback, and a retried
decode attempt at the grown scratch length — with no transport fetch (and
no other event) in between. -/
def growShortfallHandled {R : Type} (tr : List (Ev R)) : Prop :=
  ∀ pre view cap n post,
    tr = pre ++ Ev.attempt view cap (Outcome.tooSmallBuffer n) :: post →
    ∃ view' o rest,
      post = Ev.growEv (nextPowerOfTwo (cap + n)) :: Ev.rollbackEv ::
        Ev.attempt view' (nextPowerOfTwo (cap + n)) o :: rest

/-- C5, clause (a): every `commit()` in the trace is immediately preceded
by a successful decode attempt. -/
def commitPreceded {R : Type} (tr : List (Ev R)) : Prop :=
  ∀ pre post, tr = pre ++ Ev.commitEv :: post →
    ∃ pre' view cap r n, pre = pre' ++ [Ev.attempt view cap (Outcome.success r n)]

/-- C5, clause (b): every successful decode attempt is immediately
followed by `commit()`. -/
def successCommits {R : Type} (tr : List (Ev R)) : Prop :=
  ∀ pre view cap r n post,
    tr = pre ++ Ev.attempt view cap (Outcome.success r n) :: post →
    ∃ rest, post = Ev.commitEv :: rest

/-- C5, clause (c): every `NotEnoughData` attempt is immediately followed
by a rollback. -/
def needRollsBack {R : Type} (tr : List (Ev R)) : Prop :=
  ∀ pre view cap post,
    tr = pre ++ Ev.attempt view cap Outcome.notEnoughData :: post →
    ∃ rest, post = Ev.rollbackEv :: rest

/-- C5, clause (e): a fatal decode attempt ends the call's trace — no
commit, rollback or retry follows it. -/
def fatalEnds {R : Type} (tr : List (Ev R)) : Prop :=
  ∀ pre view cap e post,
    tr = pre ++ Ev.attempt view cap (Outcome.fatal e) :: post → post = []

/-- C5 property of a trace: `commit()` happens exactly after successful
decode attempts, and every non-`Success` outcome rolls the pending buffer
back before any retried attempt (fatal outcomes terminate with no retry
and no commit). -/
def commitDiscipline {R : Type} (tr : List (Ev R)) : Prop :=
  commitPreceded tr ∧ successCommits tr ∧ needRollsBack tr ∧
    (∀ pre view cap n post,
      tr = pre ++ Ev.attempt view cap (Outcome.tooSmallBuffer n) :: post →
      ∃ rest, post = Ev.growEv (nextPowerOfTwo (cap + n)) :: Ev.rollbackEv :: rest) ∧
    fatalEnds tr

/-- C6 property: if the transport yielded an error `e` during this call,
nothing at all follows it in the trace (no retry, no further fetch, no
decode attempt), and the item returned is the terminal error wrapping the
transport error's original message (`Error::Custom(e.to_string())`). -/
def transportErrTerminal {R : Type} (res : PollItem R) (tr : List (Ev R)) : Prop :=
  ∀ pre e post, tr = pre ++ Ev.fetchErr e :: post →
    post = [] ∧ res = PollItem.errItem (CursorError.transport e)

/-- The successive scratch lengths recorded by growth events in a trace. -/
def growsOf {R : Type} (tr : List (Ev R)) : List Nat :=
  tr.filterMap fun e => match e with | Ev.growEv L => some L | _ => none

/-- The additional-capacity values reported by shortfall attempts in a
trace. -/
def needsOf {R : Type} (tr : List (Ev R)) : List Nat :=
  tr.filterMap fun e => match e with
    | Ev.attempt _ _ (Outcome.tooSmallBuffer n) => some n
    | _ => none

/-! ## Byte-level semantics of the cursor

`runB` is the cursor's drive loop re-expressed over the *abstraction* of
the pending buffer: only the unread byte view matters.  It is related to
`runCursor` by a simulation (below); the chunk-boundary-independence and
clean/truncated-end claims are proved through it. -/

/-- The cursor loop over the flattened unread view: decode, and on
success drop the consumed bytes (commit), on shortfall grow, on missing
data fetch the next chunk or end — mirroring `poll_next` arm by arm. -/
def runB {R : Type} (D : Decoder R) :
    Nat → List Nat → Nat → List (Except String Chunk) →
    Option (List R × Terminal × List Nat × List (Except String Chunk))
  | 0, _, _, _ => none
  | f + 1, v, cap, st =>
    match D v cap with
    | .success r n =>
      match runB D f (v.drop n) cap st with
      | none => none
      | some (rs, t, vF, stF) => some (r :: rs, t, vF, stF)
    | .tooSmallBuffer need => runB D f v (nextPowerOfTwo (cap + need)) st
    | .notEnoughData =>
      match st with
      | [] => some ([], if v = [] then .ended else .failed .notEnoughData, v, [])
      | .ok c :: rest => runB D f (v ++ c) cap rest
      | .error e :: rest => some ([], .failed (.transport e), v, rest)
    | .fatal e => some ([], .failed (.decode e), v, st)

/-- Modelled from the spec: the Row Decoder contract of §4.2 that the
cursor relies on.  A streaming decoder's verdict is stable under
appending bytes it has not asked for (success and fatal outcomes report
on a prefix it fully saw), monotone in scratch capacity (more working
memory cannot invalidate a verdict that did not ask for more), needs data
on an empty view, reports genuine positive shortfalls, and stops
reporting shortfalls once some finite capacity is reached. -/
structure DecoderContract {R : Type} (D : Decoder R) : Prop where
  succ_extend : ∀ v cap r n w, D v cap = .success r n →
    n ≤ v.length ∧ D (v ++ w) cap = .success r n
  succ_cap : ∀ v cap cap' r n, cap ≤ cap' → D v cap = .success r n → D v cap' = .success r n
  need_cap : ∀ v cap cap', cap ≤ cap' → D v cap = .notEnoughData → D v cap' = .notEnoughData
  fatal_extend : ∀ v cap e w, D v cap = .fatal e → D (v ++ w) cap = .fatal e
  fatal_cap : ∀ v cap cap' e, cap ≤ cap' → D v cap = .fatal e → D v cap' = .fatal e
  empty_need : ∀ cap, D [] cap = .notEnoughData
  small_pos : ∀ v cap n, D v cap = .tooSmallBuffer n → 1 ≤ n
  small_bound : ∀ v, ∃ cap, ∀ n, D v cap ≠ .tooSmallBuffer n

/-- The records a decoder produces from a byte sequence, consuming it
completely: `Produces D v rs` holds when repeated decoding (each success
at a sufficient capacity) turns `v` into the record list `rs` with no
bytes left over. -/
inductive Produces {R : Type} (D : Decoder R) : List Nat → List R → Prop where
  | nil : Produces D [] []
  | cons {v : List Nat} {r : R} {rs : List R} {n cap : Nat} :
      D v cap = .success r n → Produces D (v.drop n) rs → Produces D v (r :: rs)

/-- The poll item corresponding to a terminal of the run. -/
def termOf {R : Type} : Terminal → PollItem R
  | .ended => .endStream
  | .failed e => .errItem e

/-! ## Concrete decoders for witnessing the cursor theorems -/

/-- A decoder producing one record per byte: the simplest contract-abiding
row decoder. -/
def byteDecoder : Decoder Nat := fun v _ =>
  match v with
  | [] => Outcome.notEnoughData
  | b :: _ => Outcome.success b 1

/-- A decoder needing two bytes per record: exercises the truncated-end
path on an odd byte count. -/
def pairDecoder : Decoder Nat := fun v _ =>
  match v with
  | a :: _ :: _ => Outcome.success a 2
  | _ => Outcome.notEnoughData

/-- A decoder that insists on 4000 bytes of scratch before decoding one
record per byte: exercises the growth path. -/
def growDecoder : Decoder Nat := fun v cap =>
  if cap < 4000 then Outcome.tooSmallBuffer 1000
  else
    match v with
    | [] => Outcome.notEnoughData
    | b :: _ => Outcome.success b 1

/-- A decoder that always wants more data: exercises the transport-error
path. -/
def noDataDecoder : Decoder Nat := fun _ _ => Outcome.notEnoughData

theorem np2Go_pow2 (f n : Nat) : ∀ p, (∃ k, p = 2 ^ k) → ∃ k, np2Go f n p = 2 ^ k := by
  induction f with
  | zero => intro p hp; exact hp
  | succ f ih =>
    intro p hp
    unfold np2Go
    by_cases h : p < n
    · simp only [h, if_true]
      obtain ⟨k, hk⟩ := hp
      exact ih (p * 2) ⟨k + 1, by rw [hk, pow_succ]⟩
    · simpa [h] using hp

theorem np2Go_ge (f n : Nat) : ∀ p, 0 < p → n ≤ p * 2 ^ f → n ≤ np2Go f n p := by
  induction f with
  | zero => intro p _ h; simpa using h
  | succ f ih =>
    intro p hp h
    unfold np2Go
    by_cases hlt : p < n
    · simp only [hlt, if_true]
      apply ih (p * 2) (by omega)
      calc n ≤ p * 2 ^ (f + 1) := h
        _ = p * 2 * 2 ^ f := by ring
    · simpa [hlt] using Nat.le_of_not_lt hlt

/-- `nextPowerOfTwo n` is a power of two. -/
theorem nextPowerOfTwo_pow2 (n : Nat) : ∃ k, nextPowerOfTwo n = 2 ^ k :=
  np2Go_pow2 n n 1 ⟨0, rfl⟩

/-- `nextPowerOfTwo n` is at least `n`. -/
theorem le_nextPowerOfTwo (n : Nat) : n ≤ nextPowerOfTwo n := by
  have h := np2Go_ge n n 1 (by omega)
  apply h
  have := Nat.lt_two_pow n
  omega

/-- Minimality: `nextPowerOfTwo n` does not overshoot past any power of two `≥ n`. -/
theorem nextPowerOfTwo_min (n k : Nat) (h : n ≤ 2 ^ k) : nextPowerOfTwo n ≤ 2 ^ k := by
  suffices hGo : ∀ f p j, p = 2 ^ j → p ≤ 2 ^ k → np2Go f n p ≤ 2 ^ k by
    exact hGo n 1 0 rfl (Nat.one_le_two_pow)
  intro f
  induction f with
  | zero => intro p j _ hpk; simpa using hpk
  | succ f ih =>
    intro p j hpj hpk
    unfold np2Go
    by_cases hlt : p < n
    · simp only [hlt, if_true]
      apply ih (p * 2) (j + 1) (by rw [hpj, pow_succ])
      have hjk : j < k := by
        by_contra hc
        have : 2 ^ k ≤ 2 ^ j := Nat.pow_le_pow_right (by omega) (by omega)
        omega
      calc p * 2 = 2 ^ (j + 1) := by rw [hpj, pow_succ]
        _ ≤ 2 ^ k := Nat.pow_le_pow_right (by omega) (by omega)
    · simpa [hlt] using hpk

theorem BufList.WF.readEq {b : BufList} (h : b.WF) : b.readOfs = b.commitOfs := h.1

theorem BufList.WF.commit_le {b : BufList} (h : b.WF) : b.commitOfs ≤ b.chunks.flatten.length := by
  obtain ⟨-, -, h3⟩ := h
  match hc : b.chunks with
  | [] => simp [hc] at h3 ⊢; omega
  | c :: cs =>
    rw [hc] at h3
    simp only [List.flatten_cons, List.length_append]
    omega

theorem BufList.empty_WF : BufList.empty.WF := by
  refine ⟨rfl, ?_, ?_⟩ <;> simp [BufList.empty]

/-- Full specification of `releaseLoop`: it preserves the unread suffix,
keeps chunks nonempty, re-establishes that the offset lies strictly inside
the first remaining chunk, and preserves the count of retained bytes. -/
theorem releaseLoop_spec :
    ∀ (cs : List Chunk) (n : Nat), n ≤ cs.flatten.length → (∀ c ∈ cs, c ≠ []) →
      (releaseLoop cs n).1.flatten.drop (releaseLoop cs n).2 = cs.flatten.drop n ∧
      (∀ c ∈ (releaseLoop cs n).1, c ≠ []) ∧
      (match (releaseLoop cs n).1 with
       | [] => (releaseLoop cs n).2 = 0
       | c :: _ => (releaseLoop cs n).2 < c.length) ∧
      (releaseLoop cs n).2 ≤ (releaseLoop cs n).1.flatten.length ∧
      (releaseLoop cs n).1.flatten.length - (releaseLoop cs n).2 = cs.flatten.length - n := by
  intro cs
  induction cs with
  | nil =>
    intro n hn _
    simp at hn
    simp [releaseLoop, hn]
  | cons c cs ih =>
    intro n hn hne
    by_cases hc : c.length ≤ n
    · have hrw : releaseLoop (c :: cs) n = releaseLoop cs (n - c.length) := by
        simp [releaseLoop, hc]
      have hn' : n - c.length ≤ cs.flatten.length := by
        simp only [List.flatten_cons, List.length_append] at hn
        omega
      have hne' : ∀ d ∈ cs, d ≠ [] := fun d hd => hne d (List.mem_cons_of_mem c hd)
      obtain ⟨h1, h2, h3, h4, h5⟩ := ih (n - c.length) hn' hne'
      rw [hrw]
      refine ⟨?_, h2, h3, h4, ?_⟩
      · rw [h1]
        simp only [List.flatten_cons]
        rw [List.drop_append_eq_append_drop]
        have : c.drop n = [] := List.drop_eq_nil_of_le hc
        simp [this]
      · rw [h5]
        simp only [List.flatten_cons, List.length_append]
        omega
    · have hrw : releaseLoop (c :: cs) n = (c :: cs, n) := by
        simp [releaseLoop, hc]
      rw [hrw]
      refine ⟨rfl, hne, ?_, ?_, rfl⟩
      · simpa using Nat.lt_of_not_le hc
      · simp only [List.flatten_cons, List.length_append]
        omega

/-- Effect of `push` on the unread view: the new chunk's bytes are appended. -/
theorem BufList.viewBytes_push (b : BufList) (c : Chunk)
    (h : b.readOfs ≤ b.chunks.flatten.length) :
    (b.push c).viewBytes = b.viewBytes ++ c := by
  simp only [BufList.push, BufList.viewBytes, List.flatten_append, List.flatten_cons,
    List.flatten_nil, List.append_nil]
  rw [List.drop_append_eq_append_drop]
  have hlen : b.chunks.flatten.length = (List.map List.length b.chunks).sum := by
    simp
  have hz : b.readOfs - (List.map List.length b.chunks).sum = 0 := by omega
  simp [hz]

theorem BufList.push_WF {b : BufList} (h : b.WF) {c : Chunk} (hc : c ≠ []) :
    (b.push c).WF := by
  obtain ⟨h1, h2, h3⟩ := h
  refine ⟨h1, ?_, ?_⟩
  · intro d hd
    simp only [BufList.push, List.mem_append, List.mem_singleton] at hd
    rcases hd with hd | hd
    · exact h2 d hd
    · rw [hd]; exact hc
  · simp only [BufList.push]
    match hcs : b.chunks with
    | [] =>
      rw [hcs] at h3
      simp only [List.nil_append]
      simp only at h3
      rw [h3]
      exact List.length_pos.mpr hc
    | d :: ds =>
      rw [hcs] at h3
      simpa using h3

/-- On a well-formed buffer `rollback` is the identity (the read position
is already at the commit position). -/
theorem BufList.rollback_eq {b : BufList} (h : b.WF) : b.rollback = b := by
  obtain ⟨h1, -, -⟩ := h
  cases b
  simp_all [BufList.rollback]

/-- Committing after the read view advanced by `n` bytes drops exactly the
`n` consumed bytes from the unread view, and preserves well-formedness. -/
theorem BufList.advance_commit_spec {b : BufList} (h : b.WF) {n : Nat}
    (hn : n ≤ b.viewBytes.length) :
    ((b.advance n).commit).WF ∧
    ((b.advance n).commit).viewBytes = b.viewBytes.drop n ∧
    ((b.advance n).commit).retained = b.viewBytes.length - n := by
  have hle : b.readOfs + n ≤ b.chunks.flatten.length := by
    have hv : b.viewBytes.length = b.chunks.flatten.length - b.readOfs := by
      simp [BufList.viewBytes]
    have := h.commit_le
    have hre := h.readEq
    omega
  have hne := h.2.1
  obtain ⟨h1, h2, h3, h4, h5⟩ := releaseLoop_spec b.chunks (b.readOfs + n) hle hne
  constructor
  · exact ⟨rfl, h2, h3⟩
  constructor
  · show (releaseLoop b.chunks (b.readOfs + n)).1.flatten.drop
        (releaseLoop b.chunks (b.readOfs + n)).2 = b.viewBytes.drop n
    rw [h1]
    simp [BufList.viewBytes, List.drop_drop, Nat.add_comm]
  · show (releaseLoop b.chunks (b.readOfs + n)).1.flatten.length -
        (releaseLoop b.chunks (b.readOfs + n)).2 = b.viewBytes.length - n
    rw [h5]
    simp only [BufList.viewBytes, List.length_drop]
    rw [h.readEq]
    omega

/-- On a well-formed buffer: the retained chunk count is zero exactly when
the unread view is empty. -/
theorem BufList.bufsCnt_pos_iff {b : BufList} (h : b.WF) :
    0 < b.bufsCnt ↔ b.viewBytes ≠ [] := by
  obtain ⟨h1, h2, h3⟩ := h
  match hcs : b.chunks with
  | [] =>
    rw [hcs] at h3; simp only at h3
    simp [BufList.bufsCnt, BufList.viewBytes, hcs]
  | c :: cs =>
    rw [hcs] at h3; simp only at h3
    have hlen : b.readOfs < b.chunks.flatten.length := by
      rw [hcs, h1]
      simp only [List.flatten_cons, List.length_append]
      omega
    constructor
    · intro _
      simp only [BufList.viewBytes, ne_eq, List.drop_eq_nil_iff]
      omega
    · intro _
      simp [BufList.bufsCnt, hcs]

/-- On a well-formed buffer the retained byte count is the length of the
unread view. -/
theorem BufList.retained_eq_view_length {b : BufList} (h : b.WF) :
    b.retained = b.viewBytes.length := by
  simp only [BufList.retained, BufList.viewBytes, List.length_drop, h.readEq]

theorem escapeDebugChar_length_pos (c : Char) : 1 ≤ (escapeDebugChar c).length := by
  unfold escapeDebugChar
  split
  · decide
  · split
    · decide
    · simp [String.singleton, String.length]

theorem escapeDebug_length (s : String) : s.length ≤ (escapeDebug s).length := by
  show s.data.length ≤ _
  unfold escapeDebug
  induction s.data with
  | nil => simp
  | cons c l ih =>
    simp only [List.foldr_cons, List.length_cons, String.length_append]
    have := escapeDebugChar_length_pos c
    omega

/-- C7: In the structured interchange representation, deserialization of a
`FixedString` accepts both a bare string and the one-field wrapper object
(yielding the same wrapped value), while serialization always produces the
wrapper-object form and never a bare string. -/
theorem fixedString_dual_input_single_output :
    (∀ s : String, deserializeFixedString (.str s) = .ok (FixedString.new s)) ∧
    (∀ s : String,
      deserializeFixedString (.obj [("FixedString", .str s)]) = .ok (FixedString.new s)) ∧
    (∀ x : FixedString, serializeFixedString x = .obj [("FixedString", .str x.string)]) ∧
    (∀ x : FixedString,
      (serializeFixedString x).isObject = true ∧ (serializeFixedString x).asStr = none) := by
  refine ⟨fun s => rfl, fun s => ?_, fun x => rfl, fun x => ⟨rfl, rfl⟩⟩
  show deserializeFixedString (.obj [("FixedString", .str s)]) = .ok (FixedString.new s)
  rfl

/-- C8: serializing a `FixedString` and deserializing the result is the
identity. -/
theorem fixedString_roundtrip :
    ∀ x : FixedString, deserializeFixedString (serializeFixedString x) = .ok x := by
  intro x
  rfl

/-- C9: deserializing a `FixedString` returns an error only for an object
lacking a `"FixedString"` field; whenever the relevant value (bare, or
under the `"FixedString"` key) is a non-string JSON value, the
implementation panics through `unwrap` instead of returning an error. -/
theorem fixedString_deserialize_err_iff_panic :
    (∀ (j : Json) (m : String), deserializeFixedString j = .err m →
      j.isObject = true ∧ j.getKey "FixedString" = none) ∧
    (∀ (j v : Json), j.getKey "FixedString" = some v → v.asStr = none →
      deserializeFixedString j = .panic) ∧
    (∀ j : Json, j.isObject = false → j.asStr = none →
      deserializeFixedString j = .panic) := by
  refine ⟨?_, ?_, ?_⟩
  · intro j m h
    unfold deserializeFixedString at h
    by_cases hobj : j.isObject
    · refine ⟨hobj, ?_⟩
      rw [if_pos hobj] at h
      match hk : j.getKey "FixedString" with
      | none => rfl
      | some v =>
        rw [hk] at h
        simp only at h
        match hs : v.asStr with
        | some s => rw [hs] at h; simp at h
        | none => rw [hs] at h; simp at h
    · rw [if_neg hobj] at h
      match hs : j.asStr with
      | some s => rw [hs] at h; simp at h
      | none => rw [hs] at h; simp at h
  · intro j v hk hs
    have hobj : j.isObject = true := by
      match j with
      | .obj fields => rfl
      | .null | .bool _ | .num _ | .str _ | .arr _ => simp [Json.getKey] at hk
    unfold deserializeFixedString
    rw [if_pos hobj, hk]
    simp only [hs]
  · intro j hobj hs
    unfold deserializeFixedString
    rw [if_neg (by simp [hobj]), hs]

/-- C10: `SerializeAs` produces the wrapper object whose field is the
Debug formatting of the source; for a string source the field is the
quoted Debug form, not the raw string. -/
theorem fixedString_serializeAs_debug :
    (∀ (α : Type) (dbg : α → String) (x : α),
      serializeAsFixedString dbg x = .obj [("FixedString", .str (dbg x))]) ∧
    (∀ s : String,
      serializeAsFixedString rustDebugString s
        = .obj [("FixedString", .str (rustDebugString s))] ∧
      (∃ t, rustDebugString s = "\"" ++ t ++ "\"") ∧
      rustDebugString s ≠ s) := by
  refine ⟨fun α dbg x => rfl, fun s => ⟨rfl, ⟨escapeDebug s, rfl⟩, ?_⟩⟩
  intro h
  have hlen := congrArg String.length h
  have h2 : (rustDebugString s).length = (escapeDebug s).length + 2 := by
    simp only [rustDebugString, String.length_append]
    have : ("\"" : String).length = 1 := rfl
    omega
  have := escapeDebug_length s
  omega

theorem cons_eq_append {α : Type} {e x : α} {t pre post : List α}
    (h : e :: t = pre ++ x :: post) :
    (pre = [] ∧ e = x ∧ t = post) ∨ ∃ pre', pre = e :: pre' ∧ t = pre' ++ x :: post := by
  cases pre with
  | nil =>
    simp only [List.nil_append, List.cons.injEq] at h
    exact Or.inl ⟨rfl, h.1, h.2⟩
  | cons a pre' =>
    simp only [List.cons_append, List.cons.injEq] at h
    exact Or.inr ⟨pre', by rw [h.1], h.2⟩

/-- Every successful `poll_next` call's trace starts with a decode attempt
on the current view with the current scratch length. -/
theorem pollNext_trace_head {R : Type} (D : Decoder R) :
    ∀ (f : Nat) (cur : RemoteCursor) (st : List (Except String Chunk))
      (res : PollItem R) (cur' : RemoteCursor) (st' : List (Except String Chunk))
      (tr : List (Ev R)),
      pollNext D f cur st = some (res, cur', st', tr) →
      ∃ o tr', tr = Ev.attempt cur.pending.viewBytes cur.tmpLen o :: tr' := by
  intro f cur st res cur' st' tr h
  match f with
  | 0 => exact absurd h (by simp [pollNext])
  | f + 1 =>
    simp only [pollNext] at h
    split at h
    · simp only [Option.some.injEq, Prod.mk.injEq] at h
      obtain ⟨rfl, rfl, rfl, rfl⟩ := h
      exact ⟨_, _, rfl⟩
    · split at h
      · exact absurd h (by simp)
      · simp only [Option.some.injEq, Prod.mk.injEq] at h
        obtain ⟨rfl, rfl, rfl, rfl⟩ := h
        exact ⟨_, _, rfl⟩
    · split at h
      · split at h
        · exact absurd h (by simp)
        · simp only [Option.some.injEq, Prod.mk.injEq] at h
          obtain ⟨rfl, rfl, rfl, rfl⟩ := h
          exact ⟨_, _, rfl⟩
      · simp only [Option.some.injEq, Prod.mk.injEq] at h
        obtain ⟨rfl, rfl, rfl, rfl⟩ := h
        exact ⟨_, _, rfl⟩
      · split at h
        · simp only [Option.some.injEq, Prod.mk.injEq] at h
          obtain ⟨rfl, rfl, rfl, rfl⟩ := h
          exact ⟨_, _, rfl⟩
        · simp only [Option.some.injEq, Prod.mk.injEq] at h
          obtain ⟨rfl, rfl, rfl, rfl⟩ := h
          exact ⟨_, _, rfl⟩
    · simp only [Option.some.injEq, Prod.mk.injEq] at h
      obtain ⟨rfl, rfl, rfl, rfl⟩ := h
      exact ⟨_, _, rfl⟩

/-- Every successful `poll_next` call emits a trace of the shape
`TraceShape`, indexed by the returned item. -/
theorem pollNext_traceShape {R : Type} (D : Decoder R) :
    ∀ (f : Nat) (cur : RemoteCursor) (st : List (Except String Chunk))
      (res : PollItem R) (cur' : RemoteCursor) (st' : List (Except String Chunk))
      (tr : List (Ev R)),
      pollNext D f cur st = some (res, cur', st', tr) → TraceShape res tr := by
  intro f
  induction f with
  | zero => intro cur st res cur' st' tr h; exact absurd h (by simp [pollNext])
  | succ f ih =>
    intro cur st res cur' st' tr h
    simp only [pollNext] at h
    split at h
    · simp only [Option.some.injEq, Prod.mk.injEq] at h
      obtain ⟨rfl, rfl, rfl, rfl⟩ := h
      exact TraceShape.succ _ _ _ _
    · split at h
      · exact absurd h (by simp)
      · rename_i heq
        simp only [Option.some.injEq, Prod.mk.injEq] at h
        obtain ⟨rfl, rfl, rfl, rfl⟩ := h
        obtain ⟨o, tr', htr'⟩ := pollNext_trace_head D f _ _ _ _ _ _ heq
        exact TraceShape.small _ _ _ (ih _ _ _ _ _ _ heq) ⟨_, o, tr', htr'⟩
    · split at h
      · split at h
        · exact absurd h (by simp)
        · rename_i heq
          simp only [Option.some.injEq, Prod.mk.injEq] at h
          obtain ⟨rfl, rfl, rfl, rfl⟩ := h
          exact TraceShape.needFetch _ _ _ (ih _ _ _ _ _ _ heq)
      · simp only [Option.some.injEq, Prod.mk.injEq] at h
        obtain ⟨rfl, rfl, rfl, rfl⟩ := h
        exact TraceShape.needErr _ _ _
      · split at h
        · simp only [Option.some.injEq, Prod.mk.injEq] at h
          obtain ⟨rfl, rfl, rfl, rfl⟩ := h
          exact TraceShape.needEndTrunc _ _
        · simp only [Option.some.injEq, Prod.mk.injEq] at h
          obtain ⟨rfl, rfl, rfl, rfl⟩ := h
          exact TraceShape.needEndClean _ _
    · simp only [Option.some.injEq, Prod.mk.injEq] at h
      obtain ⟨rfl, rfl, rfl, rfl⟩ := h
      exact TraceShape.fatalTr _ _ _

theorem growShortfallHandled_nil {R : Type} : growShortfallHandled ([] : List (Ev R)) := by
  intro pre view cap n post h
  exact absurd h (by simp)

theorem growShortfallHandled_cons {R : Type} (e : Ev R) {tr : List (Ev R)}
    (he : ∀ view cap n, e ≠ Ev.attempt view cap (Outcome.tooSmallBuffer n))
    (h : growShortfallHandled tr) : growShortfallHandled (e :: tr) := by
  intro pre view cap n post hd
  rcases cons_eq_append hd with ⟨rfl, he', rfl⟩ | ⟨pre', rfl, hd'⟩
  · exact absurd he' (he view cap n)
  · exact h pre' view cap n post hd'

theorem traceShape_growShortfallHandled {R : Type} {res : PollItem R} {tr : List (Ev R)}
    (h : TraceShape res tr) : growShortfallHandled tr := by
  induction h with
  | succ v c r n =>
    exact growShortfallHandled_cons _ (by simp)
      (growShortfallHandled_cons _ (by simp) growShortfallHandled_nil)
  | small v c need hrec hhead ih =>
    intro pre view cap n post hd
    rcases cons_eq_append hd with ⟨rfl, he', rfl⟩ | ⟨pre', rfl, hd'⟩
    · simp only [Ev.attempt.injEq, Outcome.tooSmallBuffer.injEq] at he'
      obtain ⟨rfl, rfl, rfl⟩ := he'
      obtain ⟨v2, o2, tr2, rfl⟩ := hhead
      exact ⟨v2, o2, tr2, rfl⟩
    · exact (growShortfallHandled_cons _ (by simp)
        (growShortfallHandled_cons _ (by simp) ih)) pre' view cap n post hd'
  | needFetch v c ch hrec ih =>
    exact growShortfallHandled_cons _ (by simp) (growShortfallHandled_cons _ (by simp)
      (growShortfallHandled_cons _ (by simp) ih))
  | needErr v c e =>
    exact growShortfallHandled_cons _ (by simp) (growShortfallHandled_cons _ (by simp)
      (growShortfallHandled_cons _ (by simp) growShortfallHandled_nil))
  | needEndTrunc v c =>
    exact growShortfallHandled_cons _ (by simp) (growShortfallHandled_cons _ (by simp)
      (growShortfallHandled_cons _ (by simp) growShortfallHandled_nil))
  | needEndClean v c =>
    exact growShortfallHandled_cons _ (by simp) (growShortfallHandled_cons _ (by simp)
      (growShortfallHandled_cons _ (by simp) growShortfallHandled_nil))
  | fatalTr v c e =>
    exact growShortfallHandled_cons _ (by simp) growShortfallHandled_nil

/-- C3: whenever a decode attempt reports `TooSmallBuffer(n)`, the cursor
grows the scratch buffer to the next power of two of (current scratch
length + n), rolls the pending buffer back, and retries the decode
immediately at the grown length, fetching no chunk from the transport
before the retry; this holds for every shortfall attempt in the trace. -/
theorem cursor_growth_retries_without_io {R : Type} (D : Decoder R) (f : Nat)
    (cur : RemoteCursor) (st : List (Except String Chunk)) (res : PollItem R)
    (cur' : RemoteCursor) (st' : List (Except String Chunk)) (tr : List (Ev R))
    (h : pollNext D f cur st = some (res, cur', st', tr)) :
    growShortfallHandled tr :=
  traceShape_growShortfallHandled (pollNext_traceShape D f cur st res cur' st' tr h)

theorem commitPreceded_nil {R : Type} : commitPreceded ([] : List (Ev R)) := by
  intro pre post h
  exact absurd h (by simp)

theorem commitPreceded_cons {R : Type} (e : Ev R) {tr : List (Ev R)}
    (he : e ≠ Ev.commitEv) (h : commitPreceded tr) : commitPreceded (e :: tr) := by
  intro pre post hd
  rcases cons_eq_append hd with ⟨rfl, he', rfl⟩ | ⟨pre', rfl, hd'⟩
  · exact absurd he' he
  · obtain ⟨pre2, view, cap, r, n, rfl⟩ := h pre' post hd'
    exact ⟨e :: pre2, view, cap, r, n, rfl⟩

theorem traceShape_commitPreceded {R : Type} {res : PollItem R} {tr : List (Ev R)}
    (h : TraceShape res tr) : commitPreceded tr := by
  induction h with
  | succ v c r n =>
    intro pre post hd
    rcases cons_eq_append hd with ⟨rfl, he', rfl⟩ | ⟨pre', rfl, hd'⟩
    · exact absurd he' (by simp)
    · rcases cons_eq_append hd' with ⟨rfl, -, rfl⟩ | ⟨pre2, rfl, hd2⟩
      · exact ⟨[], v, c, r, n, rfl⟩
      · exact absurd hd2 (by simp)
  | small v c need hrec hhead ih =>
    exact commitPreceded_cons _ (by simp) (commitPreceded_cons _ (by simp)
      (commitPreceded_cons _ (by simp) ih))
  | needFetch v c ch hrec ih =>
    exact commitPreceded_cons _ (by simp) (commitPreceded_cons _ (by simp)
      (commitPreceded_cons _ (by simp) ih))
  | needErr v c e =>
    exact commitPreceded_cons _ (by simp) (commitPreceded_cons _ (by simp)
      (commitPreceded_cons _ (by simp) commitPreceded_nil))
  | needEndTrunc v c =>
    exact commitPreceded_cons _ (by simp) (commitPreceded_cons _ (by simp)
      (commitPreceded_cons _ (by simp) commitPreceded_nil))
  | needEndClean v c =>
    exact commitPreceded_cons _ (by simp) (commitPreceded_cons _ (by simp)
      (commitPreceded_cons _ (by simp) commitPreceded_nil))
  | fatalTr v c e =>
    exact commitPreceded_cons _ (by simp) commitPreceded_nil

theorem successCommits_nil {R : Type} : successCommits ([] : List (Ev R)) := by
  intro pre view cap r n post h
  exact absurd h (by simp)

theorem successCommits_cons {R : Type} (e : Ev R) {tr : List (Ev R)}
    (he : ∀ view cap r n, e ≠ Ev.attempt view cap (Outcome.success r n))
    (h : successCommits tr) : successCommits (e :: tr) := by
  intro pre view cap r n post hd
  rcases cons_eq_append hd with ⟨rfl, he', rfl⟩ | ⟨pre', rfl, hd'⟩
  · exact absurd he' (he view cap r n)
  · exact h pre' view cap r n post hd'

theorem traceShape_successCommits {R : Type} {res : PollItem R} {tr : List (Ev R)}
    (h : TraceShape res tr) : successCommits tr := by
  induction h with
  | succ v c r n =>
    intro pre view cap r' n' post hd
    rcases cons_eq_append hd with ⟨rfl, -, rfl⟩ | ⟨pre', rfl, hd'⟩
    · exact ⟨[], rfl⟩
    · rcases cons_eq_append hd' with ⟨rfl, he', rfl⟩ | ⟨pre2, rfl, hd2⟩
      · exact absurd he' (by simp)
      · exact absurd hd2 (by simp)
  | small v c need hrec hhead ih =>
    exact successCommits_cons _ (by simp) (successCommits_cons _ (by simp)
      (successCommits_cons _ (by simp) ih))
  | needFetch v c ch hrec ih =>
    exact successCommits_cons _ (by simp) (successCommits_cons _ (by simp)
      (successCommits_cons _ (by simp) ih))
  | needErr v c e =>
    exact successCommits_cons _ (by simp) (successCommits_cons _ (by simp)
      (successCommits_cons _ (by simp) successCommits_nil))
  | needEndTrunc v c =>
    exact successCommits_cons _ (by simp) (successCommits_cons _ (by simp)
      (successCommits_cons _ (by simp) successCommits_nil))
  | needEndClean v c =>
    exact successCommits_cons _ (by simp) (successCommits_cons _ (by simp)
      (successCommits_cons _ (by simp) successCommits_nil))
  | fatalTr v c e =>
    exact successCommits_cons _ (by simp) successCommits_nil

theorem needRollsBack_nil {R : Type} : needRollsBack ([] : List (Ev R)) := by
  intro pre view cap post h
  exact absurd h (by simp)

theorem needRollsBack_cons {R : Type} (e : Ev R) {tr : List (Ev R)}
    (he : ∀ view cap, e ≠ Ev.attempt view cap Outcome.notEnoughData)
    (h : needRollsBack tr) : needRollsBack (e :: tr) := by
  intro pre view cap post hd
  rcases cons_eq_append hd with ⟨rfl, he', rfl⟩ | ⟨pre', rfl, hd'⟩
  · exact absurd he' (he view cap)
  · exact h pre' view cap post hd'

theorem traceShape_needRollsBack {R : Type} {res : PollItem R} {tr : List (Ev R)}
    (h : TraceShape res tr) : needRollsBack tr := by
  induction h with
  | succ v c r n =>
    exact needRollsBack_cons _ (by simp) (needRollsBack_cons _ (by simp) needRollsBack_nil)
  | small v c need hrec hhead ih =>
    exact needRollsBack_cons _ (by simp) (needRollsBack_cons _ (by simp)
      (needRollsBack_cons _ (by simp) ih))
  | needFetch v c ch hrec ih =>
    intro pre view cap post hd
    rcases cons_eq_append hd with ⟨rfl, -, rfl⟩ | ⟨pre', rfl, hd'⟩
    · exact ⟨_, rfl⟩
    · exact (needRollsBack_cons _ (by simp) (needRollsBack_cons _ (by simp) ih))
        pre' view cap post hd'
  | needErr v c e =>
    intro pre view cap post hd
    rcases cons_eq_append hd with ⟨rfl, -, rfl⟩ | ⟨pre', rfl, hd'⟩
    · exact ⟨_, rfl⟩
    · exact (needRollsBack_cons _ (by simp)
        (needRollsBack_cons _ (by simp) needRollsBack_nil)) pre' view cap post hd'
  | needEndTrunc v c =>
    intro pre view cap post hd
    rcases cons_eq_append hd with ⟨rfl, -, rfl⟩ | ⟨pre', rfl, hd'⟩
    · exact ⟨_, rfl⟩
    · exact (needRollsBack_cons _ (by simp)
        (needRollsBack_cons _ (by simp) needRollsBack_nil)) pre' view cap post hd'
  | needEndClean v c =>
    intro pre view cap post hd
    rcases cons_eq_append hd with ⟨rfl, -, rfl⟩ | ⟨pre', rfl, hd'⟩
    · exact ⟨_, rfl⟩
    · exact (needRollsBack_cons _ (by simp)
        (needRollsBack_cons _ (by simp) needRollsBack_nil)) pre' view cap post hd'
  | fatalTr v c e =>
    exact needRollsBack_cons _ (by simp) needRollsBack_nil

theorem fatalEnds_nil {R : Type} : fatalEnds ([] : List (Ev R)) := by
  intro pre view cap e post h
  exact absurd h (by simp)

theorem fatalEnds_cons {R : Type} (e0 : Ev R) {tr : List (Ev R)}
    (he : ∀ view cap e, e0 ≠ Ev.attempt view cap (Outcome.fatal e))
    (h : fatalEnds tr) : fatalEnds (e0 :: tr) := by
  intro pre view cap e post hd
  rcases cons_eq_append hd with ⟨rfl, he', rfl⟩ | ⟨pre', rfl, hd'⟩
  · exact absurd he' (he view cap e)
  · exact h pre' view cap e post hd'

theorem traceShape_fatalEnds {R : Type} {res : PollItem R} {tr : List (Ev R)}
    (h : TraceShape res tr) : fatalEnds tr := by
  induction h with
  | succ v c r n =>
    exact fatalEnds_cons _ (by simp) (fatalEnds_cons _ (by simp) fatalEnds_nil)
  | small v c need hrec hhead ih =>
    exact fatalEnds_cons _ (by simp) (fatalEnds_cons _ (by simp)
      (fatalEnds_cons _ (by simp) ih))
  | needFetch v c ch hrec ih =>
    exact fatalEnds_cons _ (by simp) (fatalEnds_cons _ (by simp)
      (fatalEnds_cons _ (by simp) ih))
  | needErr v c e =>
    exact fatalEnds_cons _ (by simp) (fatalEnds_cons _ (by simp)
      (fatalEnds_cons _ (by simp) fatalEnds_nil))
  | needEndTrunc v c =>
    exact fatalEnds_cons _ (by simp) (fatalEnds_cons _ (by simp)
      (fatalEnds_cons _ (by simp) fatalEnds_nil))
  | needEndClean v c =>
    exact fatalEnds_cons _ (by simp) (fatalEnds_cons _ (by simp)
      (fatalEnds_cons _ (by simp) fatalEnds_nil))
  | fatalTr v c e =>
    intro pre view cap e' post hd
    rcases cons_eq_append hd with ⟨rfl, -, rfl⟩ | ⟨pre', rfl, hd'⟩
    · rfl
    · exact absurd hd' (by simp)

/-- C5: on every decode attempt made by the cursor, `commit()` is called
if and only if the attempt succeeded; on every non-`Success` outcome the
pending buffer is rolled back before any retry, so a failed attempt
leaves the committed state unchanged. -/
theorem cursor_commit_iff_success {R : Type} (D : Decoder R) (f : Nat)
    (cur : RemoteCursor) (st : List (Except String Chunk)) (res : PollItem R)
    (cur' : RemoteCursor) (st' : List (Except String Chunk)) (tr : List (Ev R))
    (h : pollNext D f cur st = some (res, cur', st', tr)) :
    commitDiscipline tr := by
  have hs := pollNext_traceShape D f cur st res cur' st' tr h
  refine ⟨traceShape_commitPreceded hs, traceShape_successCommits hs,
    traceShape_needRollsBack hs, ?_, traceShape_fatalEnds hs⟩
  intro pre view cap n post hd
  obtain ⟨view', o, rest, rfl⟩ := traceShape_growShortfallHandled hs pre view cap n post hd
  exact ⟨_, rfl⟩

theorem transportErrTerminal_nil {R : Type} (res : PollItem R) :
    transportErrTerminal res ([] : List (Ev R)) := by
  intro pre e post h
  exact absurd h (by simp)

theorem transportErrTerminal_cons {R : Type} (res : PollItem R) (e0 : Ev R)
    {tr : List (Ev R)} (he : ∀ e, e0 ≠ Ev.fetchErr e)
    (h : transportErrTerminal res tr) : transportErrTerminal res (e0 :: tr) := by
  intro pre e post hd
  rcases cons_eq_append hd with ⟨rfl, he', rfl⟩ | ⟨pre', rfl, hd'⟩
  · exact absurd he' (he e)
  · exact h pre' e post hd'

theorem traceShape_transportErrTerminal {R : Type} {res : PollItem R} {tr : List (Ev R)}
    (h : TraceShape res tr) : transportErrTerminal res tr := by
  induction h with
  | succ v c r n =>
    exact transportErrTerminal_cons _ _ (by simp)
      (transportErrTerminal_cons _ _ (by simp) (transportErrTerminal_nil _))
  | small v c need hrec hhead ih =>
    exact transportErrTerminal_cons _ _ (by simp) (transportErrTerminal_cons _ _ (by simp)
      (transportErrTerminal_cons _ _ (by simp) ih))
  | needFetch v c ch hrec ih =>
    exact transportErrTerminal_cons _ _ (by simp) (transportErrTerminal_cons _ _ (by simp)
      (transportErrTerminal_cons _ _ (by simp) ih))
  | needErr v c e =>
    intro pre e' post hd
    rcases cons_eq_append hd with ⟨rfl, he', rfl⟩ | ⟨pre', rfl, hd'⟩
    · exact absurd he' (by simp)
    · rcases cons_eq_append hd' with ⟨rfl, he2, rfl⟩ | ⟨pre2, rfl, hd2⟩
      · exact absurd he2 (by simp)
      · rcases cons_eq_append hd2 with ⟨rfl, he3, rfl⟩ | ⟨pre3, rfl, hd3⟩
        · simp only [Ev.fetchErr.injEq] at he3
          subst he3
          exact ⟨rfl, rfl⟩
        · exact absurd hd3 (by simp)
  | needEndTrunc v c =>
    exact transportErrTerminal_cons _ _ (by simp) (transportErrTerminal_cons _ _ (by simp)
      (transportErrTerminal_cons _ _ (by simp) (transportErrTerminal_nil _)))
  | needEndClean v c =>
    exact transportErrTerminal_cons _ _ (by simp) (transportErrTerminal_cons _ _ (by simp)
      (transportErrTerminal_cons _ _ (by simp) (transportErrTerminal_nil _)))
  | fatalTr v c e =>
    exact transportErrTerminal_cons _ _ (by simp) (transportErrTerminal_nil _)

/-- C6: every error yielded by the transport's chunk sequence makes the
cursor immediately return a terminal error wrapping the transport error's
original message, with no automatic retry of the transport at this
layer. -/
theorem cursor_transport_error_terminal {R : Type} (D : Decoder R) (f : Nat)
    (cur : RemoteCursor) (st : List (Except String Chunk)) (res : PollItem R)
    (cur' : RemoteCursor) (st' : List (Except String Chunk)) (tr : List (Ev R))
    (h : pollNext D f cur st = some (res, cur', st', tr)) :
    transportErrTerminal res tr :=
  traceShape_transportErrTerminal (pollNext_traceShape D f cur st res cur' st' tr h)

theorem getLastD_append (l1 l2 : List Nat) (a : Nat) :
    (l1 ++ l2).getLastD a = l2.getLastD (l1.getLastD a) := by
  induction l1 generalizing a with
  | nil => rfl
  | cons b l1 ih => simp only [List.cons_append, List.getLastD_cons, ih]

theorem chain_le_append {a : Nat} {l1 l2 : List Nat}
    (h1 : List.Chain (· ≤ ·) a l1) (h2 : List.Chain (· ≤ ·) (l1.getLastD a) l2) :
    List.Chain (· ≤ ·) a (l1 ++ l2) := by
  induction l1 generalizing a with
  | nil => simpa using h2
  | cons b l1 ih =>
    rw [List.chain_cons] at h1
    rw [List.getLastD_cons] at h2
    exact List.chain_cons.mpr ⟨h1.1, ih h1.2 h2⟩

/-- Capacity bookkeeping of one `poll_next` call: the scratch length never
decreases, the growth events form a nondecreasing chain starting at the
entry length and ending at the exit length, every grown length is a power
of two bounded by the exit length, and every reported shortfall is
satisfied by the exit length. -/
theorem pollNext_caps {R : Type} (D : Decoder R) :
    ∀ (f : Nat) (cur : RemoteCursor) (st : List (Except String Chunk))
      (res : PollItem R) (cur' : RemoteCursor) (st' : List (Except String Chunk))
      (tr : List (Ev R)),
      pollNext D f cur st = some (res, cur', st', tr) →
      cur.tmpLen ≤ cur'.tmpLen ∧
      List.Chain (· ≤ ·) cur.tmpLen (growsOf tr) ∧
      (growsOf tr).getLastD cur.tmpLen = cur'.tmpLen ∧
      (∀ L ∈ growsOf tr, (∃ k, L = 2 ^ k) ∧ L ≤ cur'.tmpLen) ∧
      (∀ n ∈ needsOf tr, n ≤ cur'.tmpLen) := by
  intro f
  induction f with
  | zero => intro cur st res cur' st' tr h; exact absurd h (by simp [pollNext])
  | succ f ih =>
    intro cur st res cur' st' tr h
    simp only [pollNext] at h
    split at h
    · simp only [Option.some.injEq, Prod.mk.injEq] at h
      obtain ⟨rfl, rfl, rfl, rfl⟩ := h
      simp [growsOf, needsOf]
    · split at h
      · exact absurd h (by simp)
      · rename_i res1 cur1 st1 tr1 heq
        simp only [Option.some.injEq, Prod.mk.injEq] at h
        obtain ⟨rfl, rfl, rfl, rfl⟩ := h
        obtain ⟨ih1, ih2, ih3, ih4, ih5⟩ := ih _ _ _ _ _ _ heq
        rename_i need hD x2
        have hle : cur.tmpLen ≤ nextPowerOfTwo (cur.tmpLen + need) :=
          le_trans (Nat.le_add_right _ _) (le_nextPowerOfTwo _)
        have hneed : need ≤ nextPowerOfTwo (cur.tmpLen + need) :=
          le_trans (Nat.le_add_left _ _) (le_nextPowerOfTwo _)
        refine ⟨le_trans hle ih1, ?_, ?_, ?_, ?_⟩
        · simp only [growsOf, List.filterMap_cons]
          simp only [growsOf] at ih2
          exact List.chain_cons.mpr ⟨hle, ih2⟩
        · simp only [growsOf, List.filterMap_cons, List.getLastD_cons]
          simpa [growsOf] using ih3
        · simp only [growsOf, List.filterMap_cons, List.mem_cons]
          rintro L (rfl | hL)
          · exact ⟨nextPowerOfTwo_pow2 _, ih1⟩
          · exact ih4 L (by simpa [growsOf] using hL)
        · simp only [needsOf, List.filterMap_cons, List.mem_cons]
          rintro n (rfl | hn)
          · exact le_trans hneed ih1
          · exact ih5 n (by simpa [needsOf] using hn)
    · split at h
      · split at h
        · exact absurd h (by simp)
        · rename_i heq
          simp only [Option.some.injEq, Prod.mk.injEq] at h
          obtain ⟨rfl, rfl, rfl, rfl⟩ := h
          obtain ⟨ih1, ih2, ih3, ih4, ih5⟩ := ih _ _ _ _ _ _ heq
          refine ⟨ih1, ?_, ?_, ?_, ?_⟩
          · simpa [growsOf, List.filterMap_cons] using ih2
          · simpa [growsOf, List.filterMap_cons] using ih3
          · intro L hL
            exact ih4 L (by simpa [growsOf, List.filterMap_cons] using hL)
          · intro n hn
            exact ih5 n (by simpa [needsOf, List.filterMap_cons] using hn)
      · simp only [Option.some.injEq, Prod.mk.injEq] at h
        obtain ⟨rfl, rfl, rfl, rfl⟩ := h
        simp [growsOf, needsOf]
      · split at h
        · simp only [Option.some.injEq, Prod.mk.injEq] at h
          obtain ⟨rfl, rfl, rfl, rfl⟩ := h
          simp [growsOf, needsOf]
        · simp only [Option.some.injEq, Prod.mk.injEq] at h
          obtain ⟨rfl, rfl, rfl, rfl⟩ := h
          simp [growsOf, needsOf]
    · simp only [Option.some.injEq, Prod.mk.injEq] at h
      obtain ⟨rfl, rfl, rfl, rfl⟩ := h
      simp [growsOf, needsOf]

/-- Capacity bookkeeping of a full drive of the cursor (composition of
`pollNext_caps` over all pulls). -/
theorem runCursor_caps {R : Type} (D : Decoder R) :
    ∀ (f : Nat) (cur : RemoteCursor) (st : List (Except String Chunk))
      (rs : List R) (t : Terminal) (curF : RemoteCursor)
      (stF : List (Except String Chunk)) (tr : List (Ev R)),
      runCursor D f cur st = some (rs, t, curF, stF, tr) →
      cur.tmpLen ≤ curF.tmpLen ∧
      List.Chain (· ≤ ·) cur.tmpLen (growsOf tr) ∧
      (growsOf tr).getLastD cur.tmpLen = curF.tmpLen ∧
      (∀ L ∈ growsOf tr, (∃ k, L = 2 ^ k) ∧ L ≤ curF.tmpLen) ∧
      (∀ n ∈ needsOf tr, n ≤ curF.tmpLen) := by
  intro f
  induction f with
  | zero => intro cur st rs t curF stF tr h; exact absurd h (by simp [runCursor])
  | succ f ih =>
    intro cur st rs t curF stF tr h
    simp only [runCursor] at h
    split at h
    · exact absurd h (by simp)
    · rename_i cur1 st1 tr1 heq
      simp only [Option.some.injEq, Prod.mk.injEq] at h
      obtain ⟨rfl, rfl, rfl, rfl, rfl⟩ := h
      exact pollNext_caps D _ _ _ _ _ _ _ heq
    · rename_i e1 cur1 st1 tr1 heq
      simp only [Option.some.injEq, Prod.mk.injEq] at h
      obtain ⟨rfl, rfl, rfl, rfl, rfl⟩ := h
      exact pollNext_caps D _ _ _ _ _ _ _ heq
    · split at h
      · exact absurd h (by simp)
      · rename_i r1 cur1 st1 tr1 heq x2 rs2 t2 curF2 stF2 trF2 heq2
        simp only [Option.some.injEq, Prod.mk.injEq] at h
        obtain ⟨rfl, rfl, rfl, rfl, rfl⟩ := h
        obtain ⟨p1, p2, p3, p4, p5⟩ := pollNext_caps D _ _ _ _ _ _ _ heq
        obtain ⟨q1, q2, q3, q4, q5⟩ := ih _ _ _ _ _ _ _ heq2
        have hgrows : ∀ trA trB : List (Ev R),
            growsOf (trA ++ trB) = growsOf trA ++ growsOf trB := by
          intro trA trB; simp [growsOf, List.filterMap_append]
        have hneeds : ∀ trA trB : List (Ev R),
            needsOf (trA ++ trB) = needsOf trA ++ needsOf trB := by
          intro trA trB; simp [needsOf, List.filterMap_append]
        refine ⟨le_trans p1 q1, ?_, ?_, ?_, ?_⟩
        · rw [hgrows]
          exact chain_le_append p2 (by rw [p3]; exact q2)
        · rw [hgrows, getLastD_append, p3, q3]
        · rw [hgrows]
          intro L hL
          rcases List.mem_append.mp hL with hL | hL
          · obtain ⟨hp, hle⟩ := p4 L hL
            exact ⟨hp, le_trans hle q1⟩
          · exact q4 L hL
        · rw [hneeds]
          intro n hn
          rcases List.mem_append.mp hn with hn | hn
          · exact le_trans (p5 n hn) q1
          · exact q5 n hn

/-- C4: over any sequence of pulls starting from `RemoteCursor::new`, the
scratch buffer's length is always a power of two (initially `1024 = 2^10`
and after each growth event), never decreases from one capacity to the
next, and in the end is at least as large as every single
additional-capacity value ever reported by a `TooSmallBuffer` outcome. -/
theorem cursor_scratch_monotone {R : Type} (D : Decoder R) (f : Nat)
    (st : List (Except String Chunk)) (rs : List R) (t : Terminal)
    (curF : RemoteCursor) (stF : List (Except String Chunk)) (tr : List (Ev R))
    (h : runCursor D f RemoteCursor.new st = some (rs, t, curF, stF, tr)) :
    (∃ k, curF.tmpLen = 2 ^ k) ∧ 1024 ≤ curF.tmpLen ∧
    List.Chain (· ≤ ·) 1024 (growsOf tr) ∧
    (∀ L ∈ growsOf tr, (∃ k, L = 2 ^ k) ∧ L ≤ curF.tmpLen) ∧
    (∀ n ∈ needsOf tr, n ≤ curF.tmpLen) := by
  obtain ⟨h1, h2, h3, h4, h5⟩ := runCursor_caps D f RemoteCursor.new st rs t curF stF tr h
  have hnew : RemoteCursor.new.tmpLen = 1024 := rfl
  rw [hnew] at h1 h2 h3
  refine ⟨?_, h1, h2, h4, h5⟩
  match hg : growsOf tr with
  | [] =>
    rw [hg] at h3
    simp only [List.getLastD_nil] at h3
    exact ⟨10, by omega⟩
  | g :: gs =>
    have hmem : (growsOf tr).getLastD 1024 ∈ growsOf tr := by
      rw [hg, List.getLastD_cons]
      exact List.getLastD_mem_cons gs g
    rw [h3] at hmem
    exact (h4 curF.tmpLen hmem).1

theorem DecoderContract.no_small_above {R : Type} {D : Decoder R}
    (hc : DecoderContract D) (v : List Nat) :
    ∃ C, ∀ cap, C ≤ cap → ∀ n, D v cap ≠ .tooSmallBuffer n := by
  obtain ⟨C, hC⟩ := hc.small_bound v
  refine ⟨C, fun cap hle n h => ?_⟩
  match ho : D v C with
  | .success r m => rw [hc.succ_cap v C cap r m hle ho] at h; exact absurd h (by simp)
  | .notEnoughData => rw [hc.need_cap v C cap hle ho] at h; exact absurd h (by simp)
  | .fatal e => rw [hc.fatal_cap v C cap e hle ho] at h; exact absurd h (by simp)
  | .tooSmallBuffer m => exact hC m ho

theorem DecoderContract.success_unique {R : Type} {D : Decoder R}
    (hc : DecoderContract D) {v : List Nat} {c1 c2 : Nat} {r1 r2 : R} {n1 n2 : Nat}
    (h1 : D v c1 = .success r1 n1) (h2 : D v c2 = .success r2 n2) :
    r1 = r2 ∧ n1 = n2 := by
  have e1 := hc.succ_cap v c1 (max c1 c2) r1 n1 (le_max_left _ _) h1
  have e2 := hc.succ_cap v c2 (max c1 c2) r2 n2 (le_max_right _ _) h2
  rw [e1] at e2
  exact ⟨(Outcome.success.inj e2).1, (Outcome.success.inj e2).2⟩

theorem Produces.nil_eq {R : Type} {D : Decoder R} {v : List Nat}
    (h : Produces D v []) : v = [] := by
  cases h; rfl

theorem Produces.cons_inv {R : Type} {D : Decoder R} {v : List Nat} {r : R} {rs : List R}
    (h : Produces D v (r :: rs)) :
    ∃ n cap, D v cap = Outcome.success r n ∧ Produces D (v.drop n) rs := by
  cases h with
  | cons hD hrest => exact ⟨_, _, hD, hrest⟩

/-- Extraction: a clean all-bytes-upfront run of the cursor loop means
the byte sequence produces exactly those records. -/
theorem runB_produces {R : Type} (D : Decoder R) :
    ∀ (f : Nat) (v : List Nat) (cap : Nat) (rs : List R) (vF : List Nat)
      (stF : List (Except String Chunk)),
      runB D f v cap [] = some (rs, .ended, vF, stF) → Produces D v rs := by
  intro f
  induction f with
  | zero => intro v cap rs vF stF h; exact absurd h (by simp [runB])
  | succ f ih =>
    intro v cap rs vF stF h
    simp only [runB] at h
    split at h
    · rename_i r n hD
      split at h
      · exact absurd h (by simp)
      · rename_i rs1 t1 vF1 stF1 heq
        simp only [Option.some.injEq, Prod.mk.injEq] at h
        obtain ⟨rfl, ht, rfl, rfl⟩ := h
        rw [ht] at heq
        exact Produces.cons hD (ih _ _ _ _ _ heq)
    · exact ih _ _ _ _ _ h
    · rename_i hD
      simp only [Option.some.injEq, Prod.mk.injEq] at h
      obtain ⟨rfl, ht, rfl, rfl⟩ := h
      by_cases hv : v = []
      · subst hv; exact Produces.nil
      · rw [if_neg hv] at ht; exact absurd ht (by simp)
    · rename_i e hD
      simp only [Option.some.injEq, Prod.mk.injEq] at h
      obtain ⟨rfl, ht, rfl, rfl⟩ := h
      exact absurd ht (by simp)

/-- Simulation: if the remaining bytes (current view plus all chunks still
to arrive) produce the records `rs`, then from any scratch capacity the
cursor loop, fed those chunks one at a time, terminates with exactly `rs`
and a clean end.  This is the heart of chunk-boundary independence. -/
theorem produces_runB {R : Type} {D : Decoder R} (hc : DecoderContract D) :
    ∀ (rs : List R) (v : List Nat) (cap : Nat) (cs : List Chunk),
      (∀ ch ∈ cs, ch ≠ []) → Produces D (v ++ cs.flatten) rs →
      ∃ f, runB D f v cap (cs.map Except.ok) = some (rs, .ended, [], []) := by
  intro rs
  induction rs with
  | nil =>
    intro v cap cs hne hp
    have hvz : v ++ cs.flatten = [] := hp.nil_eq
    have hv : v = [] := by
      rcases List.append_eq_nil.mp hvz with ⟨h1, -⟩
      exact h1
    have hfz : cs.flatten = [] := by
      rcases List.append_eq_nil.mp hvz with ⟨-, h2⟩
      exact h2
    have hcs : cs = [] := by
      match cs with
      | [] => rfl
      | ch :: cs' =>
        exfalso
        simp only [List.flatten_cons, List.append_eq_nil] at hfz
        exact hne ch (List.mem_cons_self ch cs') hfz.1
    subst hv hcs
    exact ⟨1, by simp [runB, hc.empty_need]⟩
  | cons r rs ihr =>
    intro v cap cs hne hp
    obtain ⟨n, capS, hD, hrest⟩ := hp.cons_inv
    obtain ⟨w, hw⟩ : ∃ w, v ++ cs.flatten = w := ⟨_, rfl⟩
    rw [hw] at hD hrest
    have hnw : n ≤ w.length := (hc.succ_extend w capS r n [] hD).1
    clear hp
    induction cs generalizing v cap with
    | nil =>
      have hwv : v = w := by simpa using hw
      subst hwv
      obtain ⟨C, hC⟩ := hc.no_small_above v
      suffices hg : ∀ gap cap, C - cap ≤ gap →
          ∃ f, runB D f v cap [] = some (r :: rs, .ended, [], []) by
        exact hg (C - cap) cap le_rfl
      intro gap
      induction gap using Nat.strong_induction_on with
      | _ gap ihg =>
        intro cap hgap
        match ho : D v cap with
        | .success r' n' =>
          obtain ⟨rfl, rfl⟩ := hc.success_unique ho hD
          obtain ⟨f, hf⟩ := ihr (v.drop n') cap [] (by simp) (by simpa using hrest)
          refine ⟨f + 1, ?_⟩
          simp only [List.map_nil] at hf
          simp only [runB, ho, List.map_nil]
          rw [hf]
        | .tooSmallBuffer m =>
          have hcap : cap < C := by
            by_contra hcc
            exact hC cap (by omega) m ho
          have hm := hc.small_pos v cap m ho
          have hlt : cap < nextPowerOfTwo (cap + m) :=
            lt_of_lt_of_le (by omega) (le_nextPowerOfTwo _)
          obtain ⟨f, hf⟩ := ihg (C - nextPowerOfTwo (cap + m)) (by omega)
            (nextPowerOfTwo (cap + m)) le_rfl
          refine ⟨f + 1, ?_⟩
          simp only [runB, ho, List.map_nil]
          exact hf
        | .notEnoughData =>
          exfalso
          have h1 := hc.need_cap v cap (max cap capS) (le_max_left _ _) ho
          have h2 := hc.succ_cap v capS (max cap capS) r n (le_max_right _ _) hD
          rw [h1] at h2
          exact absurd h2 (by simp)
        | .fatal e =>
          exfalso
          have h1 := hc.fatal_cap v cap (max cap capS) e (le_max_left _ _) ho
          have h2 := hc.succ_cap v capS (max cap capS) r n (le_max_right _ _) hD
          rw [h1] at h2
          exact absurd h2 (by simp)
    | cons ch cs' ihc =>
      obtain ⟨C, hC⟩ := hc.no_small_above v
      suffices hg : ∀ gap cap, C - cap ≤ gap →
          ∃ f, runB D f v cap ((ch :: cs').map Except.ok) = some (r :: rs, .ended, [], []) by
        exact hg (C - cap) cap le_rfl
      intro gap
      induction gap using Nat.strong_induction_on with
      | _ gap ihg =>
        intro cap hgap
        match ho : D v cap with
        | .success r' n' =>
          have hext := hc.succ_extend v cap r' n' ((ch :: cs').flatten) ho
          have hw' := hext.2
          rw [hw] at hw'
          obtain ⟨rfl, rfl⟩ := hc.success_unique hw' hD
          have hdrop : v.drop n' ++ (ch :: cs').flatten = w.drop n' := by
            rw [← hw, List.drop_append_of_le_length hext.1]
          obtain ⟨f, hf⟩ := ihr (v.drop n') cap (ch :: cs') hne (by rw [hdrop]; exact hrest)
          refine ⟨f + 1, ?_⟩
          simp only [runB, ho]
          rw [hf]
        | .tooSmallBuffer m =>
          have hcap : cap < C := by
            by_contra hcc
            exact hC cap (by omega) m ho
          have hm := hc.small_pos v cap m ho
          have hlt : cap < nextPowerOfTwo (cap + m) :=
            lt_of_lt_of_le (by omega) (le_nextPowerOfTwo _)
          obtain ⟨f, hf⟩ := ihg (C - nextPowerOfTwo (cap + m)) (by omega)
            (nextPowerOfTwo (cap + m)) le_rfl
          refine ⟨f + 1, ?_⟩
          simp only [runB, ho]
          exact hf
        | .notEnoughData =>
          obtain ⟨f, hf⟩ := ihc (v ++ ch) cap
            (fun d hd => hne d (List.mem_cons_of_mem ch hd))
            (by rw [← hw]; simp [List.flatten_cons, List.append_assoc])
          refine ⟨f + 1, ?_⟩
          simp only [runB, ho, List.map_cons]
          exact hf
        | .fatal e =>
          exfalso
          have hext := hc.fatal_extend v cap e ((ch :: cs').flatten) ho
          rw [hw] at hext
          have h1 := hc.fatal_cap w cap (max cap capS) e (le_max_left _ _) hext
          have h2 := hc.succ_cap w capS (max cap capS) r n (le_max_right _ _) hD
          rw [h1] at h2
          exact absurd h2 (by simp)

/-- One `poll_next` call simulates steps of the byte-level loop `runB`:
well-formedness of the pending buffer and nonemptiness of streamed chunks
are preserved, and the returned item corresponds to how `runB` proceeds
from the same view, capacity and stream. -/
theorem pollNext_sim {R : Type} (D : Decoder R)
    (hcons : ∀ v cap r n, D v cap = .success r n → n ≤ v.length) :
    ∀ (f : Nat) (cur : RemoteCursor) (st : List (Except String Chunk))
      (res : PollItem R) (cur' : RemoteCursor) (st' : List (Except String Chunk))
      (tr : List (Ev R)),
      cur.pending.WF → (∀ c, Except.ok c ∈ st → c ≠ []) →
      pollNext D f cur st = some (res, cur', st', tr) →
      cur'.pending.WF ∧ (∀ c, Except.ok c ∈ st' → c ≠ []) ∧
      ((∃ r, res = .item r ∧
          ∀ (g : Nat) (rs1 : List R) (t1 : Terminal) (vF1 : List Nat)
            (stF1 : List (Except String Chunk)),
            runB D g cur'.pending.viewBytes cur'.tmpLen st' = some (rs1, t1, vF1, stF1) →
            ∃ g', runB D g' cur.pending.viewBytes cur.tmpLen st
              = some (r :: rs1, t1, vF1, stF1)) ∨
        (res = .endStream ∧ cur'.pending.viewBytes = [] ∧ st' = [] ∧
          ∃ g', runB D g' cur.pending.viewBytes cur.tmpLen st
            = some ([], .ended, [], [])) ∨
        (∃ e, res = .errItem e ∧
          ∃ g', runB D g' cur.pending.viewBytes cur.tmpLen st
            = some ([], .failed e, cur'.pending.viewBytes, st'))) := by
  intro f
  induction f with
  | zero => intro cur st res cur' st' tr hWF hne h; exact absurd h (by simp [pollNext])
  | succ f ih =>
    intro cur st res cur' st' tr hWF hne h
    simp only [pollNext] at h
    split at h
    · -- success
      rename_i r n hD
      simp only [Option.some.injEq, Prod.mk.injEq] at h
      obtain ⟨rfl, rfl, rfl, rfl⟩ := h
      have hn : n ≤ cur.pending.viewBytes.length := hcons _ _ _ _ hD
      obtain ⟨hWF', hview', -⟩ := BufList.advance_commit_spec hWF hn
      refine ⟨hWF', hne, Or.inl ⟨r, rfl, ?_⟩⟩
      intro g rs1 t1 vF1 stF1 hrun
      refine ⟨g + 1, ?_⟩
      simp only [runB, hD]
      show (match runB D g (cur.pending.viewBytes.drop n) cur.tmpLen st with
        | none => none
        | some (rs, t, vF, stF) => some (r :: rs, t, vF, stF)) = _
      rw [show ((cur.pending.advance n).commit).viewBytes = cur.pending.viewBytes.drop n
        from hview'] at hrun
      rw [hrun]
    · -- tooSmallBuffer
      rename_i need hD
      split at h
      · exact absurd h (by simp)
      · rename_i res1 cur1 st1 tr1 heq
        simp only [Option.some.injEq, Prod.mk.injEq] at h
        obtain ⟨rfl, rfl, rfl, rfl⟩ := h
        rw [BufList.rollback_eq hWF] at heq
        obtain ⟨hWF', hne', hcase⟩ :=
          ih ⟨cur.pending, nextPowerOfTwo (cur.tmpLen + need)⟩ st res1 cur1 st1 tr1 hWF hne heq
        refine ⟨hWF', hne', ?_⟩
        rcases hcase with ⟨r, rfl, hcomp⟩ | ⟨rfl, hv, hst, g', hrun⟩ | ⟨e, rfl, g', hrun⟩
        · refine Or.inl ⟨r, rfl, ?_⟩
          intro g rs1 t1 vF1 stF1 hrun
          obtain ⟨g2, hg2⟩ := hcomp g rs1 t1 vF1 stF1 hrun
          exact ⟨g2 + 1, by simp only [runB, hD]; exact hg2⟩
        · exact Or.inr (Or.inl ⟨rfl, hv, hst, g' + 1, by simp only [runB, hD]; exact hrun⟩)
        · exact Or.inr (Or.inr ⟨e, rfl, g' + 1, by simp only [runB, hD]; exact hrun⟩)
    · -- notEnoughData
      rename_i hD
      split at h
      · -- ok chunk
        rename_i st0 c rest
        split at h
        · exact absurd h (by simp)
        rename_i res1 cur1 st1 tr1 heq
        simp only [Option.some.injEq, Prod.mk.injEq] at h
        obtain ⟨rfl, rfl, rfl, rfl⟩ := h
        have hc : c ≠ [] := hne c (by simp)
        have hne' : ∀ d, Except.ok d ∈ rest → d ≠ [] :=
          fun d hd => hne d (List.mem_cons_of_mem _ hd)
        rw [BufList.rollback_eq hWF] at heq
        have hWFp : (cur.pending.push c).WF := BufList.push_WF hWF hc
        obtain ⟨hWF', hne2, hcase⟩ :=
          ih ⟨cur.pending.push c, cur.tmpLen⟩ rest res1 cur1 st1 tr1 hWFp hne' heq
        have hvp : (cur.pending.push c).viewBytes = cur.pending.viewBytes ++ c :=
          BufList.viewBytes_push _ _ (by rw [hWF.readEq]; exact hWF.commit_le)
        refine ⟨hWF', hne2, ?_⟩
        rcases hcase with ⟨r, rfl, hcomp⟩ | ⟨rfl, hv, hst, g', hrun⟩ | ⟨e, rfl, g', hrun⟩
        · refine Or.inl ⟨r, rfl, ?_⟩
          intro g rs1 t1 vF1 stF1 hrun
          obtain ⟨g2, hg2⟩ := hcomp g rs1 t1 vF1 stF1 hrun
          rw [hvp] at hg2
          exact ⟨g2 + 1, by simp only [runB, hD]; exact hg2⟩
        · rw [hvp] at hrun
          exact Or.inr (Or.inl ⟨rfl, hv, hst, g' + 1, by simp only [runB, hD]; exact hrun⟩)
        · rw [hvp] at hrun
          exact Or.inr (Or.inr ⟨e, rfl, g' + 1, by simp only [runB, hD]; exact hrun⟩)
      · -- transport error
        rename_i st0 e rest
        simp only [Option.some.injEq, Prod.mk.injEq] at h
        obtain ⟨rfl, rfl, rfl, rfl⟩ := h
        rw [BufList.rollback_eq hWF]
        refine ⟨hWF, fun d hd => hne d (List.mem_cons_of_mem _ hd),
          Or.inr (Or.inr ⟨.transport e, rfl, 1, ?_⟩)⟩
        simp [runB, hD]
      · -- end of stream
        split at h
        · rename_i hcnt
          simp only [Option.some.injEq, Prod.mk.injEq] at h
          obtain ⟨rfl, rfl, rfl, rfl⟩ := h
          rw [BufList.rollback_eq hWF] at hcnt ⊢
          have hv : cur.pending.viewBytes ≠ [] := (BufList.bufsCnt_pos_iff hWF).mp hcnt
          refine ⟨hWF, by simp, Or.inr (Or.inr ⟨.notEnoughData, rfl, 1, ?_⟩)⟩
          simp [runB, hD, if_neg hv]
        · rename_i hcnt
          simp only [Option.some.injEq, Prod.mk.injEq] at h
          obtain ⟨rfl, rfl, rfl, rfl⟩ := h
          rw [BufList.rollback_eq hWF] at hcnt ⊢
          have hv : cur.pending.viewBytes = [] := by
            by_contra hvne
            exact hcnt ((BufList.bufsCnt_pos_iff hWF).mpr hvne)
          refine ⟨hWF, by simp, Or.inr (Or.inl ⟨rfl, hv, rfl, 1, ?_⟩)⟩
          rw [hv] at hD
          simp [runB, hv, hD]
    · -- fatal
      rename_i e hD
      simp only [Option.some.injEq, Prod.mk.injEq] at h
      obtain ⟨rfl, rfl, rfl, rfl⟩ := h
      refine ⟨hWF, hne, Or.inr (Or.inr ⟨.decode e, rfl, 1, ?_⟩)⟩
      simp [runB, hD]

/-- Full-run bridge (cursor to bytes): a complete drive of the cursor
corresponds to a run of the byte-level loop from the same view, capacity
and stream, with the same records, terminal and final unread view. -/
theorem runCursor_runB {R : Type} (D : Decoder R)
    (hcons : ∀ v cap r n, D v cap = .success r n → n ≤ v.length) :
    ∀ (f : Nat) (cur : RemoteCursor) (st : List (Except String Chunk))
      (rs : List R) (t : Terminal) (curF : RemoteCursor)
      (stF : List (Except String Chunk)) (tr : List (Ev R)),
      cur.pending.WF → (∀ c, Except.ok c ∈ st → c ≠ []) →
      runCursor D f cur st = some (rs, t, curF, stF, tr) →
      curF.pending.WF ∧
      ∃ g, runB D g cur.pending.viewBytes cur.tmpLen st
        = some (rs, t, curF.pending.viewBytes, stF) := by
  intro f
  induction f with
  | zero => intro cur st rs t curF stF tr hWF hne h; exact absurd h (by simp [runCursor])
  | succ f ih =>
    intro cur st rs t curF stF tr hWF hne h
    simp only [runCursor] at h
    split at h
    · exact absurd h (by simp)
    · rename_i cur1 st1 tr1 heq
      simp only [Option.some.injEq, Prod.mk.injEq] at h
      obtain ⟨rfl, rfl, rfl, rfl, rfl⟩ := h
      obtain ⟨hWF', -, hcase⟩ := pollNext_sim D hcons _ _ _ _ _ _ _ hWF hne heq
      rcases hcase with ⟨r, hri, -⟩ | ⟨-, hv, rfl, g', hrun⟩ | ⟨e, hre, -⟩
      · exact absurd hri (by simp)
      · exact ⟨hWF', g', by rw [hv]; exact hrun⟩
      · exact absurd hre (by simp)
    · rename_i e1 cur1 st1 tr1 heq
      simp only [Option.some.injEq, Prod.mk.injEq] at h
      obtain ⟨rfl, rfl, rfl, rfl, rfl⟩ := h
      obtain ⟨hWF', -, hcase⟩ := pollNext_sim D hcons _ _ _ _ _ _ _ hWF hne heq
      rcases hcase with ⟨r, hri, -⟩ | ⟨hre, -, -, -⟩ | ⟨e, hre, g', hrun⟩
      · exact absurd hri (by simp)
      · exact absurd hre (by simp)
      · obtain rfl : e1 = e := by simpa using hre
        exact ⟨hWF', g', hrun⟩
    · split at h
      · exact absurd h (by simp)
      · rename_i r1 cur1 st1 tr1 heq x2 rs2 t2 curF2 stF2 trF2 heq2
        simp only [Option.some.injEq, Prod.mk.injEq] at h
        obtain ⟨rfl, rfl, rfl, rfl, rfl⟩ := h
        obtain ⟨hWF1, hne1, hcase⟩ := pollNext_sim D hcons _ _ _ _ _ _ _ hWF hne heq
        obtain ⟨hWFF, g, hg⟩ := ih cur1 st1 rs2 t2 curF2 stF2 trF2 hWF1 hne1 heq2
        rcases hcase with ⟨r, hri, hcomp⟩ | ⟨hre, -, -, -⟩ | ⟨e, hre, -⟩
        · obtain rfl : r1 = r := by simpa using hri
          obtain ⟨g', hg'⟩ := hcomp g rs2 t2 curF2.pending.viewBytes stF2 hg
          exact ⟨hWFF, g', hg'⟩
        · exact absurd hre (by simp)
        · exact absurd hre (by simp)

/-- The byte-level loop yields a clean end only with an empty final view
and an exhausted stream. -/
theorem runB_ended {R : Type} (D : Decoder R) :
    ∀ (g : Nat) (v : List Nat) (cap : Nat) (st : List (Except String Chunk))
      (rs : List R) (vF : List Nat) (stF : List (Except String Chunk)),
      runB D g v cap st = some (rs, .ended, vF, stF) → vF = [] ∧ stF = [] := by
  intro g
  induction g with
  | zero => intro v cap st rs vF stF h; exact absurd h (by simp [runB])
  | succ g ih =>
    intro v cap st rs vF stF h
    simp only [runB] at h
    split at h
    · split at h
      · exact absurd h (by simp)
      · rename_i rs1 t1 vF1 stF1 heq
        simp only [Option.some.injEq, Prod.mk.injEq] at h
        obtain ⟨rfl, ht, rfl, rfl⟩ := h
        rw [ht] at heq
        exact ih _ _ _ _ _ _ heq
    · exact ih _ _ _ _ _ _ h
    · split at h
      · simp only [Option.some.injEq, Prod.mk.injEq] at h
        obtain ⟨rfl, ht, rfl, rfl⟩ := h
        by_cases hv : v = []
        · exact ⟨hv, rfl⟩
        · rw [if_neg hv] at ht; exact absurd ht (by simp)
      · exact ih _ _ _ _ _ _ h
      · simp only [Option.some.injEq, Prod.mk.injEq] at h
        obtain ⟨rfl, ht, rfl, rfl⟩ := h
        exact absurd ht (by simp)
    · simp only [Option.some.injEq, Prod.mk.injEq] at h
      obtain ⟨rfl, ht, rfl, rfl⟩ := h
      exact absurd ht (by simp)

/-- The byte-level loop yields the truncation error `NotEnoughData` only
with a nonempty final view and an exhausted stream. -/
theorem runB_truncated {R : Type} (D : Decoder R) :
    ∀ (g : Nat) (v : List Nat) (cap : Nat) (st : List (Except String Chunk))
      (rs : List R) (vF : List Nat) (stF : List (Except String Chunk)),
      runB D g v cap st = some (rs, .failed .notEnoughData, vF, stF) →
      vF ≠ [] ∧ stF = [] := by
  intro g
  induction g with
  | zero => intro v cap st rs vF stF h; exact absurd h (by simp [runB])
  | succ g ih =>
    intro v cap st rs vF stF h
    simp only [runB] at h
    split at h
    · split at h
      · exact absurd h (by simp)
      · rename_i rs1 t1 vF1 stF1 heq
        simp only [Option.some.injEq, Prod.mk.injEq] at h
        obtain ⟨rfl, ht, rfl, rfl⟩ := h
        rw [ht] at heq
        exact ih _ _ _ _ _ _ heq
    · exact ih _ _ _ _ _ _ h
    · split at h
      · simp only [Option.some.injEq, Prod.mk.injEq] at h
        obtain ⟨rfl, ht, rfl, rfl⟩ := h
        by_cases hv : v = []
        · rw [if_pos hv] at ht; exact absurd ht (by simp)
        · exact ⟨hv, rfl⟩
      · exact ih _ _ _ _ _ _ h
      · simp only [Option.some.injEq, Prod.mk.injEq] at h
        obtain ⟨rfl, ht, rfl, rfl⟩ := h
        exact absurd ht (by simp)
    · simp only [Option.some.injEq, Prod.mk.injEq] at h
      obtain ⟨rfl, ht, rfl, rfl⟩ := h
      exact absurd ht (by simp)

/-- C2: drive the cursor over a transport stream of (nonempty) chunks
that ends without a transport error.  If the stream ends while the
pending buffer retains zero bytes, the run ends cleanly (no further item,
no error); if it ends while at least one byte is retained, the run ends
with exactly one terminal `NotEnoughData` error.  Conversely, a clean end
implies zero retained bytes and a `NotEnoughData` end implies retained
bytes, so the two terminals characterise the two cases. -/
theorem cursor_clean_vs_truncated_end {R : Type} (D : Decoder R)
    (hcons : ∀ v cap r n, D v cap = .success r n → n ≤ v.length)
    (f : Nat) (cs : List Chunk) (hne : ∀ c ∈ cs, c ≠ [])
    (rs : List R) (t : Terminal) (curF : RemoteCursor)
    (stF : List (Except String Chunk)) (tr : List (Ev R))
    (h : runCursor D f RemoteCursor.new (cs.map Except.ok) = some (rs, t, curF, stF, tr)) :
    (t = .ended → curF.pending.retained = 0 ∧ stF = []) ∧
    (t = .failed .notEnoughData → 0 < curF.pending.retained ∧ stF = []) := by
  have hne' : ∀ c : Chunk, (Except.ok c : Except String Chunk) ∈ cs.map Except.ok → c ≠ [] := by
    intro c hc
    obtain ⟨d, hd, hde⟩ := List.mem_map.mp hc
    injection hde with hdc
    subst hdc
    exact hne d hd
  obtain ⟨hWFF, g, hg⟩ :=
    runCursor_runB D hcons f RemoteCursor.new (cs.map Except.ok) rs t curF stF tr
      BufList.empty_WF hne' h
  have hret : curF.pending.retained = curF.pending.viewBytes.length :=
    BufList.retained_eq_view_length hWFF
  constructor
  · rintro rfl
    obtain ⟨hv, hst⟩ := runB_ended D g _ _ _ _ _ _ hg
    rw [hret, hv]
    exact ⟨rfl, hst⟩
  · rintro rfl
    obtain ⟨hv, hst⟩ := runB_truncated D g _ _ _ _ _ _ hg
    rw [hret]
    exact ⟨List.length_pos.mpr hv, hst⟩

/-- Fuel monotonicity of `pollNext`. -/
theorem pollNext_mono {R : Type} (D : Decoder R) :
    ∀ (f f' : Nat) (cur : RemoteCursor) (st : List (Except String Chunk))
      (x : PollItem R × RemoteCursor × List (Except String Chunk) × List (Ev R)),
      f ≤ f' → pollNext D f cur st = some x → pollNext D f' cur st = some x := by
  intro f
  induction f with
  | zero => intro f' cur st x hle h; exact absurd h (by simp [pollNext])
  | succ f ih =>
    intro f' cur st x hle h
    match f' with
    | 0 => exact absurd hle (by omega)
    | f2x + 1 =>
      have hff : f ≤ f2x := by omega
      simp only [pollNext] at h ⊢
      cases hD : D cur.pending.viewBytes cur.tmpLen with
      | success r n =>
        simp only [hD] at h ⊢
        exact h
      | tooSmallBuffer need =>
        simp only [hD] at h ⊢
        split at h
        · exact absurd h (by simp)
        · rename_i res1 cur1 st1 tr1 heq
          simp only [ih f2x _ _ _ hff heq]
          exact h
      | notEnoughData =>
        simp only [hD] at h ⊢
        cases st with
        | nil => exact h
        | cons hd rest =>
          cases hd with
          | ok c =>
            simp only at h ⊢
            split at h
            · exact absurd h (by simp)
            · rename_i res1 cur1 st1 tr1 heq
              simp only [ih f2x _ _ _ hff heq]
              exact h
          | error e => exact h
      | fatal e =>
        simp only [hD] at h ⊢
        exact h

/-- Fuel monotonicity of `runCursor`. -/
theorem runCursor_mono {R : Type} (D : Decoder R) :
    ∀ (f f' : Nat) (cur : RemoteCursor) (st : List (Except String Chunk))
      (x : List R × Terminal × RemoteCursor × List (Except String Chunk) × List (Ev R)),
      f ≤ f' → runCursor D f cur st = some x → runCursor D f' cur st = some x := by
  intro f
  induction f with
  | zero => intro f' cur st x hle h; exact absurd h (by simp [runCursor])
  | succ f ih =>
    intro f' cur st x hle h
    match f' with
    | 0 => exact absurd hle (by omega)
    | f2x + 1 =>
      have hff : f ≤ f2x := by omega
      simp only [runCursor] at h ⊢
      split at h
      · exact absurd h (by simp)
      · rename_i cur1 st1 tr1 heq
        simp only [pollNext_mono D (f + 1) (f2x + 1) _ _ _ (by omega) heq]
        exact h
      · rename_i e1 cur1 st1 tr1 heq
        simp only [pollNext_mono D (f + 1) (f2x + 1) _ _ _ (by omega) heq]
        exact h
      · rename_i r1 cur1 st1 tr1 heq
        simp only [pollNext_mono D (f + 1) (f2x + 1) _ _ _ (by omega) heq]
        split at h
        · exact absurd h (by simp)
        · rename_i x2 rs2 t2 curF2 stF2 trF2 heq2
          simp only [ih f2x _ _ _ hff heq2]
          exact h

/-- Inverse simulation, one step: from a terminating byte-level run and a
matching cursor state, `poll_next` produces the first item of that run
(or its terminal), leaving a matching state and a strictly smaller
byte-level run for the remaining records. -/
theorem runB_pollNext {R : Type} (D : Decoder R)
    (hcons : ∀ v cap r n, D v cap = .success r n → n ≤ v.length) :
    ∀ (g : Nat) (v : List Nat) (cap : Nat) (st : List (Except String Chunk))
      (rs : List R) (t : Terminal) (vF : List Nat) (stF : List (Except String Chunk)),
      runB D g v cap st = some (rs, t, vF, stF) →
      ∀ cur : RemoteCursor, cur.pending.WF → cur.pending.viewBytes = v →
        cur.tmpLen = cap → (∀ c, Except.ok c ∈ st → c ≠ []) →
        (rs = [] ∧ ∃ f cur' tr, pollNext D f cur st = some (termOf t, cur', stF, tr)) ∨
        (∃ r rs', rs = r :: rs' ∧ ∃ f cur' st' tr g',
          pollNext D f cur st = some (.item r, cur', st', tr) ∧
          cur'.pending.WF ∧ (∀ c, Except.ok c ∈ st' → c ≠ []) ∧ g' < g ∧
          runB D g' cur'.pending.viewBytes cur'.tmpLen st' = some (rs', t, vF, stF)) := by
  intro g
  induction g with
  | zero => intro v cap st rs t vF stF h; exact absurd h (by simp [runB])
  | succ g ih =>
    intro v cap st rs t vF stF h cur hWF hview hcap hne
    subst hview
    subst hcap
    simp only [runB] at h
    cases hD : D cur.pending.viewBytes cur.tmpLen with
    | success r n =>
      simp only [hD] at h
      split at h
      · exact absurd h (by simp)
      · rename_i rs1 t1 vF1 stF1 heq
        simp only [Option.some.injEq, Prod.mk.injEq] at h
        obtain ⟨rfl, rfl, rfl, rfl⟩ := h
        have hn : n ≤ cur.pending.viewBytes.length := hcons _ _ _ _ hD
        obtain ⟨hWF', hview', -⟩ := BufList.advance_commit_spec hWF hn
        refine Or.inr ⟨r, rs1, rfl,
          1, ⟨(cur.pending.advance n).commit, cur.tmpLen⟩, st,
          [Ev.attempt cur.pending.viewBytes cur.tmpLen (Outcome.success r n), Ev.commitEv],
          g, ?_, hWF', hne, by omega, ?_⟩
        · simp [pollNext, hD]
        · show runB D g ((cur.pending.advance n).commit).viewBytes cur.tmpLen st = _
          rw [hview']
          exact heq
    | tooSmallBuffer need =>
      simp only [hD] at h
      have hIH := ih _ _ _ _ _ _ _ h
        ⟨cur.pending, nextPowerOfTwo (cur.tmpLen + need)⟩ hWF rfl rfl hne
      rcases hIH with ⟨rfl, f, cur', tr, hp⟩ |
        ⟨r, rs', rfl, f, cur', st', tr, g', hp, hWF', hne', hlt, hrun⟩
      · refine Or.inl ⟨rfl, f + 1, cur',
          Ev.attempt cur.pending.viewBytes cur.tmpLen (Outcome.tooSmallBuffer need) ::
            Ev.growEv (nextPowerOfTwo (cur.tmpLen + need)) :: Ev.rollbackEv :: tr, ?_⟩
        simp only [pollNext, hD]
        rw [BufList.rollback_eq hWF]
        simp only [hp]
      · refine Or.inr ⟨r, rs', rfl, f + 1, cur', st',
          Ev.attempt cur.pending.viewBytes cur.tmpLen (Outcome.tooSmallBuffer need) ::
            Ev.growEv (nextPowerOfTwo (cur.tmpLen + need)) :: Ev.rollbackEv :: tr,
          g', ?_, hWF', hne', by omega, hrun⟩
        simp only [pollNext, hD]
        rw [BufList.rollback_eq hWF]
        simp only [hp]
    | notEnoughData =>
      simp only [hD] at h
      cases st with
      | nil =>
        simp only [Option.some.injEq, Prod.mk.injEq] at h
        obtain ⟨rfl, rfl, rfl, rfl⟩ := h
        by_cases hv : cur.pending.viewBytes = []
        · refine Or.inl ⟨rfl, 1, ⟨cur.pending.rollback, cur.tmpLen⟩,
            [Ev.attempt cur.pending.viewBytes cur.tmpLen Outcome.notEnoughData,
              Ev.rollbackEv, Ev.fetchEnd], ?_⟩
          have hcnt : ¬0 < cur.pending.bufsCnt := by
            intro hpos
            exact (BufList.bufsCnt_pos_iff hWF).mp hpos hv
          simp only [pollNext, hD]
          rw [BufList.rollback_eq hWF]
          simp only [hcnt, if_false, hv, if_true, termOf]
        · refine Or.inl ⟨rfl, 1, ⟨cur.pending.rollback, cur.tmpLen⟩,
            [Ev.attempt cur.pending.viewBytes cur.tmpLen Outcome.notEnoughData,
              Ev.rollbackEv, Ev.fetchEnd], ?_⟩
          have hcnt : 0 < cur.pending.bufsCnt := (BufList.bufsCnt_pos_iff hWF).mpr hv
          simp only [pollNext, hD]
          rw [BufList.rollback_eq hWF]
          simp only [hcnt, if_true, hv, if_false, termOf]
      | cons hd rest =>
        cases hd with
        | ok c =>
          have hc : c ≠ [] := hne c (by simp)
          have hne' : ∀ d, Except.ok d ∈ rest → d ≠ [] :=
            fun d hd => hne d (List.mem_cons_of_mem _ hd)
          have hWFp : (cur.pending.push c).WF := BufList.push_WF hWF hc
          have hvp : (cur.pending.push c).viewBytes = cur.pending.viewBytes ++ c :=
            BufList.viewBytes_push _ _ (by rw [hWF.readEq]; exact hWF.commit_le)
          have hIH := ih _ _ _ _ _ _ _ h
            ⟨cur.pending.push c, cur.tmpLen⟩ hWFp hvp rfl hne'
          rcases hIH with ⟨rfl, f, cur', tr, hp⟩ |
            ⟨r, rs', rfl, f, cur', st', tr, g', hp, hWF', hne2, hlt, hrun⟩
          · refine Or.inl ⟨rfl, f + 1, cur',
              Ev.attempt cur.pending.viewBytes cur.tmpLen Outcome.notEnoughData ::
                Ev.rollbackEv :: Ev.fetchOk c :: tr, ?_⟩
            simp only [pollNext, hD]
            rw [BufList.rollback_eq hWF]
            simp only [hp]
          · refine Or.inr ⟨r, rs', rfl, f + 1, cur', st',
              Ev.attempt cur.pending.viewBytes cur.tmpLen Outcome.notEnoughData ::
                Ev.rollbackEv :: Ev.fetchOk c :: tr,
              g', ?_, hWF', hne2, by omega, hrun⟩
            simp only [pollNext, hD]
            rw [BufList.rollback_eq hWF]
            simp only [hp]
        | error e =>
          simp only [Option.some.injEq, Prod.mk.injEq] at h
          obtain ⟨rfl, rfl, rfl, rfl⟩ := h
          refine Or.inl ⟨rfl, 1, ⟨cur.pending.rollback, cur.tmpLen⟩,
            [Ev.attempt cur.pending.viewBytes cur.tmpLen Outcome.notEnoughData,
              Ev.rollbackEv, Ev.fetchErr e], ?_⟩
          simp only [pollNext, hD, termOf]
    | fatal e =>
      simp only [hD] at h
      simp only [Option.some.injEq, Prod.mk.injEq] at h
      obtain ⟨rfl, rfl, rfl, rfl⟩ := h
      refine Or.inl ⟨rfl, 1, cur,
        [Ev.attempt cur.pending.viewBytes cur.tmpLen (Outcome.fatal e)], ?_⟩
      simp only [pollNext, hD, termOf]

/-- Inverse simulation, full runs: a terminating byte-level run from a
matching cursor state is realised by some complete drive of the actual
cursor, with the same records and terminal. -/
theorem runB_runCursor {R : Type} (D : Decoder R)
    (hcons : ∀ v cap r n, D v cap = .success r n → n ≤ v.length) :
    ∀ (g : Nat) (v : List Nat) (cap : Nat) (st : List (Except String Chunk))
      (rs : List R) (t : Terminal) (vF : List Nat) (stF : List (Except String Chunk)),
      runB D g v cap st = some (rs, t, vF, stF) →
      ∀ cur : RemoteCursor, cur.pending.WF → cur.pending.viewBytes = v →
        cur.tmpLen = cap → (∀ c, Except.ok c ∈ st → c ≠ []) →
        ∃ f curF tr, runCursor D f cur st = some (rs, t, curF, stF, tr) := by
  intro g
  induction g using Nat.strong_induction_on with
  | _ g ihg =>
    intro v cap st rs t vF stF h cur hWF hview hcap hne
    rcases runB_pollNext D hcons g v cap st rs t vF stF h cur hWF hview hcap hne with
      ⟨rfl, f, cur', tr, hp⟩ |
      ⟨r, rs', rfl, f, cur', st', tr, g', hp, hWF', hne', hlt, hrun⟩
    · refine ⟨f + 1, cur', tr, ?_⟩
      simp only [runCursor]
      simp only [pollNext_mono D f (f + 1) _ _ _ (by omega) hp]
      cases t <;> rfl
    · obtain ⟨f2, curF, tr2, hr2⟩ :=
        ihg g' hlt _ _ _ _ _ _ _ hrun cur' hWF' rfl rfl hne'
      refine ⟨f + f2 + 1, curF, tr ++ tr2, ?_⟩
      simp only [runCursor]
      simp only [pollNext_mono D f (f + f2 + 1) _ _ _ (by omega) hp]
      simp only [runCursor_mono D f2 (f + f2) _ _ _ (by omega) hr2]

/-- A stream consisting of the single empty chunk drives the cursor to
the truncation error, never to a clean end: the pushed empty chunk keeps
`bufs_cnt() > 0` while contributing no bytes. -/
theorem runCursor_empty_chunk {R : Type} (D : Decoder R)
    (hemp : ∀ cap, D [] cap = .notEnoughData) :
    ∀ (f : Nat) (rs : List R) (t : Terminal) (curF : RemoteCursor)
      (stF : List (Except String Chunk)) (tr : List (Ev R)),
      runCursor D f RemoteCursor.new [Except.ok []] = some (rs, t, curF, stF, tr) →
      t = .failed .notEnoughData := by
  intro f rs t curF stF tr h
  match f with
  | 0 => exact absurd h (by simp [runCursor])
  | 1 =>
    exfalso
    have hv : RemoteCursor.new.pending.viewBytes = [] := rfl
    simp only [runCursor, pollNext, hv, hemp] at h
    exact absurd h (by simp)
  | f + 2 =>
    have hv : RemoteCursor.new.pending.viewBytes = [] := rfl
    have hv2 : (RemoteCursor.new.pending.rollback.push []).viewBytes = [] := rfl
    have hcnt : (RemoteCursor.new.pending.rollback.push []).rollback.bufsCnt = 1 := rfl
    simp only [runCursor, pollNext, hv, hemp, hv2, hcnt, Nat.lt_irrefl,
      Nat.zero_lt_one, if_true] at h
    simp only [Option.some.injEq, Prod.mk.injEq] at h
    obtain ⟨-, ht, -⟩ := h
    exact ht.symm

/-- C1: chunk-boundary independence.  If delivering the whole encoded
byte sequence `bs` as one chunk drives the cursor to records `rs` and a
clean end, then delivering it split into chunks at arbitrary boundaries
(any chunking whose pieces concatenate to `bs`, e.g. all 1-byte pieces)
drives the cursor to exactly the same records, in the same order, and a
clean end — for every decoder satisfying the Row Decoder contract. -/
theorem cursor_chunk_boundary_independence {R : Type} (D : Decoder R)
    (hc : DecoderContract D) (bs : Chunk) (cs : List Chunk)
    (hjoin : cs.flatten = bs) (hne : ∀ c ∈ cs, c ≠ [])
    (rs : List R) (f0 : Nat) (cF0 : RemoteCursor)
    (st0 : List (Except String Chunk)) (tr0 : List (Ev R))
    (hfull : runCursor D f0 RemoteCursor.new [Except.ok bs]
      = some (rs, .ended, cF0, st0, tr0)) :
    ∃ f cF tr, runCursor D f RemoteCursor.new (cs.map Except.ok)
      = some (rs, .ended, cF, [], tr) := by
  have hcons : ∀ v cap r n, D v cap = .success r n → n ≤ v.length :=
    fun v cap r n h => (hc.succ_extend v cap r n [] h).1
  by_cases hbs : bs = []
  · subst hbs
    have := runCursor_empty_chunk D hc.empty_need f0 rs _ cF0 st0 tr0 hfull
    exact absurd this (by simp)
  · have hneBS : ∀ c : Chunk, (Except.ok c : Except String Chunk) ∈ [Except.ok bs] → c ≠ [] := by
      intro c hcm
      simp only [List.mem_singleton, Except.ok.injEq] at hcm
      rw [← hcm] at hbs
      exact hbs
    obtain ⟨-, g, hg⟩ := runCursor_runB D hcons f0 RemoteCursor.new [Except.ok bs]
      rs .ended cF0 st0 tr0 BufList.empty_WF hneBS hfull
    have hprod : Produces D bs rs := by
      match g with
      | 0 => exact absurd hg (by simp [runB])
      | g1 + 1 =>
        have hvnew : RemoteCursor.new.pending.viewBytes = [] := rfl
        rw [hvnew] at hg
        simp only [runB, hc.empty_need] at hg
        rw [show (([] : List Nat) ++ bs) = bs from rfl] at hg
        exact runB_produces D g1 bs RemoteCursor.new.tmpLen rs _ _ hg
    obtain ⟨fB, hfB⟩ := produces_runB hc rs [] 1024 cs hne (by rw [List.nil_append, hjoin]; exact hprod)
    have hneCS : ∀ c : Chunk, (Except.ok c : Except String Chunk) ∈ cs.map Except.ok → c ≠ [] := by
      intro c hcm
      obtain ⟨d, hd, hde⟩ := List.mem_map.mp hcm
      injection hde with hdc
      subst hdc
      exact hne d hd
    exact runB_runCursor D hcons fB [] 1024 (cs.map Except.ok) rs .ended [] []
      hfB RemoteCursor.new BufList.empty_WF rfl rfl hneCS

theorem byteDecoder_contract : DecoderContract byteDecoder := by
  constructor
  · intro v cap r n w h
    match v with
    | [] => exact absurd h (by simp [byteDecoder])
    | b :: t =>
      simp only [byteDecoder, Outcome.success.injEq] at h
      obtain ⟨rfl, rfl⟩ := h
      exact ⟨by simp, by simp [byteDecoder]⟩
  · intro v cap cap' r n hle h
    match v with
    | [] => exact absurd h (by simp [byteDecoder])
    | b :: t => simpa [byteDecoder] using h
  · intro v cap cap' hle h
    match v with
    | [] => rfl
    | b :: t => exact absurd h (by simp [byteDecoder])
  · intro v cap e w h
    match v with
    | [] => exact absurd h (by simp [byteDecoder])
    | b :: t => exact absurd h (by simp [byteDecoder])
  · intro v cap cap' e hle h
    match v with
    | [] => exact absurd h (by simp [byteDecoder])
    | b :: t => exact absurd h (by simp [byteDecoder])
  · intro cap; rfl
  · intro v cap n h
    match v with
    | [] => exact absurd h (by simp [byteDecoder])
    | b :: t => exact absurd h (by simp [byteDecoder])
  · intro v
    refine ⟨0, fun n h => ?_⟩
    match v with
    | [] => exact absurd h (by simp [byteDecoder])
    | b :: t => exact absurd h (by simp [byteDecoder])

theorem pairDecoder_consumes :
    ∀ v cap r n, pairDecoder v cap = .success r n → n ≤ v.length := by
  intro v cap r n h
  match v with
  | [] => exact absurd h (by simp [pairDecoder])
  | [a] => exact absurd h (by simp [pairDecoder])
  | a :: b :: t =>
    simp only [pairDecoder, Outcome.success.injEq] at h
    obtain ⟨-, rfl⟩ := h
    simp

theorem growDecoder_consumes :
    ∀ v cap r n, growDecoder v cap = .success r n → n ≤ v.length := by
  intro v cap r n h
  simp only [growDecoder] at h
  split at h
  · exact absurd h (by simp)
  · match v with
    | [] => exact absurd h (by simp)
    | b :: t =>
      simp only [Outcome.success.injEq] at h
      obtain ⟨-, rfl⟩ := h
      simp

theorem cursor_chunk_boundary_independence_witness :
    ∃ f cF tr, runCursor byteDecoder f RemoteCursor.new
      ([[1], [2], [3]].map Except.ok) = some ([1, 2, 3], .ended, cF, [], tr) :=
  cursor_chunk_boundary_independence byteDecoder byteDecoder_contract [1, 2, 3]
    [[1], [2], [3]] rfl (by decide) [1, 2, 3] 10
    ⟨⟨[], 0, 0⟩, 1024⟩ []
    [Ev.attempt [] 1024 Outcome.notEnoughData, Ev.rollbackEv, Ev.fetchOk [1, 2, 3],
      Ev.attempt [1, 2, 3] 1024 (Outcome.success 1 1), Ev.commitEv,
      Ev.attempt [2, 3] 1024 (Outcome.success 2 1), Ev.commitEv,
      Ev.attempt [3] 1024 (Outcome.success 3 1), Ev.commitEv,
      Ev.attempt [] 1024 Outcome.notEnoughData, Ev.rollbackEv, Ev.fetchEnd]
    (by rfl)

theorem cursor_clean_vs_truncated_end_witness :
    (Terminal.failed CursorError.notEnoughData = Terminal.ended →
      (⟨⟨[[9]], 0, 0⟩, 1024⟩ : RemoteCursor).pending.retained = 0 ∧
        ([] : List (Except String Chunk)) = []) ∧
    (Terminal.failed CursorError.notEnoughData = Terminal.failed CursorError.notEnoughData →
      0 < (⟨⟨[[9]], 0, 0⟩, 1024⟩ : RemoteCursor).pending.retained ∧
        ([] : List (Except String Chunk)) = []) :=
  cursor_clean_vs_truncated_end pairDecoder pairDecoder_consumes 10 [[9]] (by decide)
    [] (.failed .notEnoughData) ⟨⟨[[9]], 0, 0⟩, 1024⟩ []
    [Ev.attempt [] 1024 Outcome.notEnoughData, Ev.rollbackEv, Ev.fetchOk [9],
      Ev.attempt [9] 1024 Outcome.notEnoughData, Ev.rollbackEv, Ev.fetchEnd]
    (by rfl)

theorem cursor_growth_retries_without_io_witness :
    growShortfallHandled
      [Ev.attempt [] 1024 (Outcome.tooSmallBuffer 1000), Ev.growEv 2048, Ev.rollbackEv,
        Ev.attempt [] 2048 (Outcome.tooSmallBuffer 1000), Ev.growEv 4096, Ev.rollbackEv,
        Ev.attempt [] 4096 Outcome.notEnoughData, Ev.rollbackEv, Ev.fetchOk [7],
        Ev.attempt [7] 4096 (Outcome.success 7 1), Ev.commitEv] :=
  cursor_growth_retries_without_io growDecoder 4 RemoteCursor.new [Except.ok [7]]
    (.item 7) ⟨⟨[], 0, 0⟩, 4096⟩ []
    [Ev.attempt [] 1024 (Outcome.tooSmallBuffer 1000), Ev.growEv 2048, Ev.rollbackEv,
      Ev.attempt [] 2048 (Outcome.tooSmallBuffer 1000), Ev.growEv 4096, Ev.rollbackEv,
      Ev.attempt [] 4096 Outcome.notEnoughData, Ev.rollbackEv, Ev.fetchOk [7],
      Ev.attempt [7] 4096 (Outcome.success 7 1), Ev.commitEv]
    (by rfl)

theorem cursor_scratch_monotone_witness :
    (∃ k, (⟨⟨[], 0, 0⟩, 4096⟩ : RemoteCursor).tmpLen = 2 ^ k) ∧
    1024 ≤ (⟨⟨[], 0, 0⟩, 4096⟩ : RemoteCursor).tmpLen ∧
    List.Chain (· ≤ ·) 1024 (growsOf
      [Ev.attempt [] 1024 (Outcome.tooSmallBuffer 1000), Ev.growEv 2048, Ev.rollbackEv,
        Ev.attempt [] 2048 (Outcome.tooSmallBuffer 1000), Ev.growEv 4096, Ev.rollbackEv,
        Ev.attempt [] 4096 Outcome.notEnoughData, Ev.rollbackEv, Ev.fetchOk [7],
        Ev.attempt [7] 4096 (Outcome.success 7 1), Ev.commitEv,
        Ev.attempt [] 4096 Outcome.notEnoughData, Ev.rollbackEv, Ev.fetchEnd]) ∧
    (∀ L ∈ growsOf
      [Ev.attempt [] 1024 (Outcome.tooSmallBuffer 1000), Ev.growEv 2048, Ev.rollbackEv,
        Ev.attempt [] 2048 (Outcome.tooSmallBuffer 1000), Ev.growEv 4096, Ev.rollbackEv,
        Ev.attempt [] 4096 Outcome.notEnoughData, Ev.rollbackEv, Ev.fetchOk [7],
        Ev.attempt [7] 4096 (Outcome.success 7 1), Ev.commitEv,
        Ev.attempt [] 4096 Outcome.notEnoughData, Ev.rollbackEv, Ev.fetchEnd],
      (∃ k, L = 2 ^ k) ∧ L ≤ (⟨⟨[], 0, 0⟩, 4096⟩ : RemoteCursor).tmpLen) ∧
    (∀ n ∈ needsOf
      [Ev.attempt [] 1024 (Outcome.tooSmallBuffer 1000), Ev.growEv 2048, Ev.rollbackEv,
        Ev.attempt [] 2048 (Outcome.tooSmallBuffer 1000), Ev.growEv 4096, Ev.rollbackEv,
        Ev.attempt [] 4096 Outcome.notEnoughData, Ev.rollbackEv, Ev.fetchOk [7],
        Ev.attempt [7] 4096 (Outcome.success 7 1), Ev.commitEv,
        Ev.attempt [] 4096 Outcome.notEnoughData, Ev.rollbackEv, Ev.fetchEnd],
      n ≤ (⟨⟨[], 0, 0⟩, 4096⟩ : RemoteCursor).tmpLen) :=
  cursor_scratch_monotone growDecoder 10 [Except.ok [7]] [7] .ended
    ⟨⟨[], 0, 0⟩, 4096⟩ []
    [Ev.attempt [] 1024 (Outcome.tooSmallBuffer 1000), Ev.growEv 2048, Ev.rollbackEv,
      Ev.attempt [] 2048 (Outcome.tooSmallBuffer 1000), Ev.growEv 4096, Ev.rollbackEv,
      Ev.attempt [] 4096 Outcome.notEnoughData, Ev.rollbackEv, Ev.fetchOk [7],
      Ev.attempt [7] 4096 (Outcome.success 7 1), Ev.commitEv,
      Ev.attempt [] 4096 Outcome.notEnoughData, Ev.rollbackEv, Ev.fetchEnd]
    (by rfl)

theorem cursor_commit_iff_success_witness :
    commitDiscipline
      [Ev.attempt [] 1024 Outcome.notEnoughData, Ev.rollbackEv, Ev.fetchOk [5],
        Ev.attempt [5] 1024 (Outcome.success 5 1), Ev.commitEv] :=
  cursor_commit_iff_success byteDecoder 2 RemoteCursor.new [Except.ok [5]]
    (.item 5) ⟨⟨[], 0, 0⟩, 1024⟩ []
    [Ev.attempt [] 1024 Outcome.notEnoughData, Ev.rollbackEv, Ev.fetchOk [5],
      Ev.attempt [5] 1024 (Outcome.success 5 1), Ev.commitEv]
    (by rfl)

theorem cursor_transport_error_terminal_witness :
    @transportErrTerminal Nat (PollItem.errItem (CursorError.transport "boom"))
      [Ev.attempt [] 1024 Outcome.notEnoughData, Ev.rollbackEv, Ev.fetchErr "boom"] :=
  cursor_transport_error_terminal noDataDecoder 1 RemoteCursor.new [Except.error "boom"]
    (.errItem (.transport "boom")) ⟨⟨[], 0, 0⟩, 1024⟩ []
    [Ev.attempt [] 1024 Outcome.notEnoughData, Ev.rollbackEv, Ev.fetchErr "boom"]
    (by rfl)

theorem fixedString_deserialize_err_iff_panic_witness :
    (Json.isObject (Json.obj []) = true ∧ (Json.obj []).getKey "FixedString" = none) ∧
    deserializeFixedString (Json.obj [("FixedString", Json.num 3)]) = .panic ∧
    deserializeFixedString (Json.num 3) = .panic :=
  ⟨fixedString_deserialize_err_iff_panic.1 (Json.obj []) "no FixedString field" rfl,
    fixedString_deserialize_err_iff_panic.2.1 (Json.obj [("FixedString", Json.num 3)])
      (Json.num 3) rfl rfl,
    fixedString_deserialize_err_iff_panic.2.2 (Json.num 3) rfl rfl⟩
